import Mathlib

/-!
Shallow embedding of the virtual-memory core of hhuTOSr
(`src/os/kernel/src/memory/virtual.rs`).

Modelling conventions:
* Physical memory is an explicit heap `Mem.heap : Nat → Nat → Entry`,
  mapping a table's byte address and an entry index (0..511) to the entry
  stored there.  The source dereferences a page-table entry's physical
  address directly as a pointer; the model reads `heap` at that byte
  address.  Frames that were never written hold arbitrary initial
  contents, exactly as freshly allocated physical frames do.
* The frame allocator (`physical::alloc` / `physical::free`, which live
  outside `src/`) is modelled from the spec: `alloc` hands out the next
  free frame number (never frame 0) and never fails; `free` records the
  freed frame.  `allocCount` and `freeList` are the observable
  accounting.
* Pages and frames are identified by their number (byte address / 4096);
  a page-table entry stores a byte address, as the hardware does.
* `PageRange`/`PhysFrameRange` are half-open intervals of page/frame
  numbers; the source's `end` field is called `stop` (`end` is a Lean
  keyword).  Range lengths use truncated `Nat` subtraction; ranges are
  proper (`start ≤ stop`) per the spec's data model.
* Panics (`assert_eq!` in `map_physical`, `unwrap` on the frame iterator
  in `map_user_physical`) are modelled by `Option`, `none` meaning the
  call aborts.
-/

namespace Paging

/-- 4 KiB page size, `crate::memory::PAGE_SIZE`. -/
def PAGE_SIZE : Nat := 4096

/-- A page-table entry: a physical byte address plus a flag bitmask.
On x86_64 the two occupy disjoint bits of one 64-bit word, so they are
kept as separate fields. -/
structure Entry where
  addr : Nat
  flags : Nat
deriving DecidableEq, Repr

/-- Model of `PageTableEntry::is_unused`: the whole entry word is zero. -/
def Entry.isUnused (e : Entry) : Bool := e.addr == 0 && e.flags == 0

/-- Model of `PageTableEntry::set_unused`: the all-zero entry. -/
def Entry.unusedE : Entry := ⟨0, 0⟩

/-- Model of `PageTableEntry::set_frame(frame, flags)`: store the frame's start
address (byte address of frame number `frame`) and the flags. -/
def Entry.setFrame (frame flags : Nat) : Entry := ⟨PAGE_SIZE * frame, flags⟩

/-- Model of `PageTableEntry::set_addr(addr, flags)`: store a byte address and flags. -/
def Entry.setAddr (addr flags : Nat) : Entry := ⟨addr, flags⟩

/-- Half-open interval of page numbers (`x86_64 PageRange`; `end` is
spelled `stop`). -/
structure PageRange where
  start : Nat
  stop : Nat
deriving DecidableEq, Repr

/-- Half-open interval of physical frame numbers (`x86_64 PhysFrameRange`). -/
structure PhysFrameRange where
  start : Nat
  stop : Nat
deriving DecidableEq, Repr

/-- Modelled from the spec: `MemorySpace` (declared in
`memory/mod.rs`, outside `src/`), the variant `{Kernel, User}` selecting
the leaf-level mapping policy. -/
inductive MemorySpace where
  | Kernel
  | User
deriving DecidableEq, Repr

/-- The machine state: physical memory plus the frame allocator.
`heap t i` is entry `i` of the page table stored at byte address `t`;
`next` is the next frame number the allocator hands out; `allocCount`
counts allocations; `freeList` records freed frame numbers. -/
structure Mem where
  heap : Nat → Nat → Entry
  next : Nat
  allocCount : Nat
  freeList : List Nat

/-- Modelled from the spec: `physical::alloc(1)` — returns one fresh
frame (its number) or panics; the model's supply is infinite so it is
total.  The frame's contents are whatever `heap` already holds there. -/
def alloc (m : Mem) : Nat × Mem :=
  (m.next, { m with next := m.next + 1, allocCount := m.allocCount + 1 })

/-- Modelled from the spec: `physical::free` on a single frame. -/
def free (m : Mem) (frame : Nat) : Mem :=
  { m with freeList := frame :: m.freeList }

/-- Store entry `e` at index `i` of the table at byte address `t`. -/
def writeEntry (m : Mem) (t i : Nat) (e : Entry) : Mem :=
  { m with heap := fun u j => if u = t then (if j = i then e else m.heap u j) else m.heap u j }

/-- Model of `PageTable::zero`: clear all entries of the table at byte address `t`. -/
def zeroTable (m : Mem) (t : Nat) : Mem :=
  { m with heap := fun u j => if u = t then Entry.unusedE else m.heap u j }

/-- Model of `page_table_index(virt_addr, level)`:
`(virt_addr >> 12 >> ((level - 1) * 9)) % 512` (the `% 512` is
`PageTableIndex::new_truncate`). -/
def pageTableIndex (vaddr level : Nat) : Nat :=
  (vaddr >>> 12 >>> (9 * (level - 1))) % 512

/-- Model of `AddressSpace`: root-table byte address plus paging depth.  The root
pointer is set at construction and, per the source, never reassigned. -/
structure AddressSpace where
  rootTable : Nat
  depth : Nat
deriving DecidableEq, Repr

/-- Loop body of `AddressSpace::map_user`: for each of `n` entries
starting at index `i`, allocate a fresh frame and install it. -/
def mapUserLoop (t flags : Nat) : Nat → Nat → Mem → Mem
  | _, 0, m => m
  | i, n + 1, m =>
    let r := alloc m
    mapUserLoop t flags (i + 1) n (writeEntry r.2 t i (Entry.setFrame r.1 flags))

/-- Model of `AddressSpace::map_user`: install `min(|pages|, 512 - start_index)`
freshly allocated leaf frames and return that count. -/
def mapUser (m : Mem) (t : Nat) (pages : PageRange) (flags : Nat) : Nat × Mem :=
  let startIndex := pageTableIndex (PAGE_SIZE * pages.start) 1
  let allocCount := min (pages.stop - pages.start) (512 - startIndex)
  (allocCount, mapUserLoop t flags startIndex allocCount m)

/-- Loop body of `AddressSpace::identity_map_kernel`: install
`frameAddr`, `frameAddr + PAGE_SIZE`, … into successive entries. -/
def identityMapKernelLoop (t flags : Nat) : Nat → Nat → Nat → Mem → Mem
  | _, _, 0, m => m
  | i, frameAddr, n + 1, m =>
    identityMapKernelLoop t flags (i + 1) (frameAddr + PAGE_SIZE) n
      (writeEntry m t i (Entry.setAddr frameAddr flags))

/-- Model of `AddressSpace::identity_map_kernel`: identity-map
`min(|pages|, 512 - start_index)` pages and return that count. -/
def identityMapKernel (m : Mem) (t : Nat) (pages : PageRange) (flags : Nat) : Nat × Mem :=
  let startIndex := pageTableIndex (PAGE_SIZE * pages.start) 1
  let allocCount := min (pages.stop - pages.start) (512 - startIndex)
  (allocCount, identityMapKernelLoop t flags startIndex (PAGE_SIZE * pages.start) allocCount m)

/-- Loop body of `AddressSpace::map_user_physical`.  `fcur` is the
frame iterator's position, `fstop` the end of the supplied frame range;
`next().unwrap()` on an exhausted iterator is the `none` case. -/
def mapUserPhysicalLoop (t flags fstop : Nat) : Nat → Nat → Nat → Mem → Option Mem
  | _, _, 0, m => some m
  | i, fcur, n + 1, m =>
    if fcur < fstop then
      mapUserPhysicalLoop t flags fstop (i + 1) (fcur + 1) n
        (writeEntry m t i (Entry.setFrame fcur flags))
    else none

/-- Model of `AddressSpace::map_user_physical`: note that the source builds the
frame iterator as `frames.into_iter().skip(start_index)` — it skips
`start_index` frames of the supplied range. -/
def mapUserPhysical (m : Mem) (t : Nat) (frames : PhysFrameRange) (pages : PageRange)
    (flags : Nat) : Option (Nat × Mem) :=
  let startIndex := pageTableIndex (PAGE_SIZE * pages.start) 1
  let allocCount := min (pages.stop - pages.start) (512 - startIndex)
  match mapUserPhysicalLoop t flags frames.stop startIndex (frames.start + startIndex)
      allocCount m with
  | some m2 => some (allocCount, m2)
  | none => none

/-- Leaf-level dispatch of `AddressSpace::map_in_table` (the
`else` branch reached at level 1). -/
def mapLeafLevel (space : MemorySpace) (flags : Nat) (t : Nat) (frames : PhysFrameRange)
    (pages : PageRange) (m : Mem) : Option (Nat × Mem) :=
  match space with
  | MemorySpace.Kernel => some (identityMapKernel m t pages flags)
  | MemorySpace.User =>
    if frames.start = frames.stop then some (mapUser m t pages flags)
    else mapUserPhysical m t frames pages flags

/-- The `level > 1` loop of `AddressSpace::map_in_table`: starting at
entry `i` with `fuel = 512 - i` iterations left, allocate/zero a child
table when the entry is unused, recurse (`rec1`), advance the page (and,
when nonempty, frame) ranges by the number of pages consumed, and break
once the page range is empty. -/
def mapLoop (rec1 : Nat → PhysFrameRange → PageRange → Mem → Option (Nat × Mem))
    (t flags : Nat) : Nat → Nat → PhysFrameRange → PageRange → Nat → Mem → Option (Nat × Mem)
  | 0, _, _, _, acc, m => some (acc, m)
  | fuel + 1, i, frames, pages, acc, m =>
    let e := m.heap t i
    let cm :=
      if e.isUnused then
        let r := alloc m
        let m2 := writeEntry r.2 t i (Entry.setFrame r.1 flags)
        (PAGE_SIZE * r.1, zeroTable m2 (PAGE_SIZE * r.1))
      else
        (e.addr, m)
    match rec1 cm.1 frames pages cm.2 with
    | none => none
    | some km =>
      let pages2 : PageRange := ⟨pages.start + km.1, pages.stop⟩
      let frames2 : PhysFrameRange :=
        if frames.start < frames.stop then ⟨frames.start + km.1, frames.stop⟩ else frames
      if pages2.stop ≤ pages2.start then some (acc + km.1, km.2)
      else mapLoop rec1 t flags fuel (i + 1) frames2 pages2 (acc + km.1) km.2

/-- Model of `AddressSpace::map_in_table`, by recursion on the level. -/
def mapInTable (space : MemorySpace) (flags : Nat) :
    Nat → Nat → PhysFrameRange → PageRange → Mem → Option (Nat × Mem)
  | l + 2, t, frames, pages, m =>
    mapLoop (fun c fr pg mm => mapInTable space flags (l + 1) c fr pg mm) t flags
      (512 - pageTableIndex (PAGE_SIZE * pages.start) (l + 2))
      (pageTableIndex (PAGE_SIZE * pages.start) (l + 2)) frames pages 0 m
  | _, t, frames, pages, m => mapLeafLevel space flags t frames pages m

/-- Model of `AddressSpace::is_table_empty`. -/
def isTableEmpty (m : Mem) (t : Nat) : Bool :=
  (List.range 512).all fun i => (m.heap t i).isUnused

/-- The level-1 loop of `AddressSpace::unmap_in_table`: free and clear
each used entry among the next `n` ones. -/
def unmapLeafLoop (t : Nat) : Nat → Nat → Mem → Mem
  | _, 0, m => m
  | i, n + 1, m =>
    let e := m.heap t i
    if e.isUnused then unmapLeafLoop t (i + 1) n m
    else unmapLeafLoop t (i + 1) n (writeEntry (free m (e.addr / PAGE_SIZE)) t i Entry.unusedE)

/-- The `level > 1` loop of `AddressSpace::unmap_in_table`: skip unused
entries (`continue`, which also skips the break test), recurse into used
ones, advance the page range by the freed count, reclaim child tables
that became empty, and break once the page range is empty. -/
def unmapLoop (rec1 : Nat → PageRange → Mem → Nat × Mem) (t : Nat) :
    Nat → Nat → PageRange → Nat → Mem → Nat × Mem
  | 0, _, _, acc, m => (acc, m)
  | fuel + 1, i, pages, acc, m =>
    let e := m.heap t i
    if e.isUnused then unmapLoop rec1 t fuel (i + 1) pages acc m
    else
      let km := rec1 e.addr pages m
      let pages2 : PageRange := ⟨pages.start + km.1, pages.stop⟩
      let m2 :=
        if isTableEmpty km.2 e.addr then
          writeEntry (free km.2 ((km.2.heap t i).addr / PAGE_SIZE)) t i Entry.unusedE
        else km.2
      if pages2.stop ≤ pages2.start then (acc + km.1, m2)
      else unmapLoop rec1 t fuel (i + 1) pages2 (acc + km.1) m2

/-- Model of `AddressSpace::unmap_in_table`, by recursion on the level. -/
def unmapInTable : Nat → Nat → PageRange → Mem → Nat × Mem
  | l + 2, t, pages, m =>
    unmapLoop (fun c pg mm => unmapInTable (l + 1) c pg mm) t
      (512 - pageTableIndex (PAGE_SIZE * pages.start) (l + 2))
      (pageTableIndex (PAGE_SIZE * pages.start) (l + 2)) pages 0 m
  | _, t, pages, m =>
    let startIndex := pageTableIndex (PAGE_SIZE * pages.start) 1
    let freeCount := min (pages.stop - pages.start) (512 - startIndex)
    (freeCount, unmapLeafLoop t startIndex freeCount m)

/-- Level-1 body of `AddressSpace::copy_table`: copy all 512 entries
verbatim (address and flags). -/
def copyLeafLoop (s t : Nat) : Nat → Nat → Mem → Mem
  | _, 0, m => m
  | i, n + 1, m =>
    copyLeafLoop s t (i + 1) n
      (writeEntry m t i (Entry.setAddr (m.heap s i).addr (m.heap s i).flags))

/-- The `level > 1` body of `AddressSpace::copy_table`: skip source-unused
entries; otherwise allocate a fresh child frame (note: it is not
zeroed), link it with the source entry's flags, and recurse. -/
def copyUpperLoop (recC : Nat → Nat → Mem → Mem) (s t : Nat) : Nat → Nat → Mem → Mem
  | _, 0, m => m
  | i, n + 1, m =>
    let se := m.heap s i
    if se.isUnused then copyUpperLoop recC s t (i + 1) n m
    else
      let r := alloc m
      let m2 := writeEntry r.2 t i (Entry.setFrame r.1 (m.heap s i).flags)
      copyUpperLoop recC s t (i + 1) n (recC se.addr (PAGE_SIZE * r.1) m2)

/-- Model of `AddressSpace::copy_table`, by recursion on the level. -/
def copyTable : Nat → Nat → Nat → Mem → Mem
  | l + 2, s, t, m => copyUpperLoop (fun ss tt mm => copyTable (l + 1) ss tt mm) s t 0 512 m
  | _, s, t, m => copyLeafLoop s t 0 512 m

/-- Model of `AddressSpace::translate_in_table`, by recursion on the level.
(Level 0 does not occur; the source's index computation would underflow
there.) -/
def translateInTable : Nat → Mem → Nat → Nat → Option Nat
  | l + 2, m, t, addr =>
    let alignedAddr := addr / PAGE_SIZE * PAGE_SIZE
    let e := m.heap t (pageTableIndex alignedAddr (l + 2))
    if e.isUnused then none
    else translateInTable (l + 1) m e.addr addr
  | _, m, t, addr =>
    let alignedAddr := addr / PAGE_SIZE * PAGE_SIZE
    let e := m.heap t (pageTableIndex alignedAddr 1)
    if e.isUnused then none
    else some (e.addr + (addr - alignedAddr))

/-- The heap cells (table address, entry index) that
`translateInTable` visits, in order: the walk's footprint.  (Proof
helper, not part of the source.) -/
def transPath : Nat → Mem → Nat → Nat → List (Nat × Nat)
  | l + 2, m, t, addr =>
    let idx := pageTableIndex (addr / PAGE_SIZE * PAGE_SIZE) (l + 2)
    let e := m.heap t idx
    if e.isUnused then [(t, idx)]
    else (t, idx) :: transPath (l + 1) m e.addr addr
  | _, _, t, addr => [(t, pageTableIndex (addr / PAGE_SIZE * PAGE_SIZE) 1)]

/-- Postcondition bundle of `mapInTable` on a fresh subtree, used by the
map-correctness induction (proof helper): consumed-page count, allocator
accounting, a frame condition on previously allocated memory, and
correct translations (with path bounds) for every consumed page. -/
def MapSpec (space : MemorySpace) (l t p e : Nat) (m : Mem) (k : Nat) (m2 : Mem) : Prop :=
  k = min (e - p) (512 ^ l - p % 512 ^ l) ∧
  m.next ≤ m2.next ∧
  m2.allocCount = m.allocCount + (m2.next - m.next) ∧
  m2.freeList = m.freeList ∧
  (∀ u j, u < PAGE_SIZE * m.next → u ≠ t → m2.heap u j = m.heap u j) ∧
  (∀ j, j < pageTableIndex (PAGE_SIZE * p) l → m2.heap t j = m.heap t j) ∧
  (∀ q off, p ≤ q → q < p + k → off < PAGE_SIZE →
    ∃ r, translateInTable l m2 t (PAGE_SIZE * q + off) = some r ∧
      (space = MemorySpace.Kernel → r = PAGE_SIZE * q + off) ∧
      (∀ cc ∈ transPath l m2 t (PAGE_SIZE * q + off),
        cc = (t, pageTableIndex (PAGE_SIZE * q) l) ∨
          (PAGE_SIZE * m.next ≤ cc.1 ∧ cc.1 < PAGE_SIZE * m2.next)))

/-- Unmap behaviour of a subtree just produced by a `User` map on a
fresh subtree (proof helper): from any state agreeing with the map's
output on the subtree's cells, `unmap_in_table` removes the same number
of pages the map installed, frees exactly as many frames as the map
allocated, clears the subtree's table completely, and leaves all other
previously or later allocated memory untouched. -/
def UnmapClause (l t p e : Nat) (m : Mem) (k : Nat) (m1 : Mem) : Prop :=
  ∀ m1' : Mem,
    (∀ j, m1'.heap t j = m1.heap t j) →
    (∀ u j, PAGE_SIZE * m.next ≤ u → u < PAGE_SIZE * m1.next → m1'.heap u j = m1.heap u j) →
    ∃ m2, unmapInTable l t ⟨p, e⟩ m1' = (k, m2) ∧
      m2.next = m1'.next ∧
      m2.allocCount = m1'.allocCount ∧
      m2.freeList.length = m1'.freeList.length + (m1.next - m.next) ∧
      (∀ j, (m2.heap t j).isUnused = true) ∧
      (∀ u j, u ≠ t → (u < PAGE_SIZE * m.next ∨ PAGE_SIZE * m1.next ≤ u) →
        m2.heap u j = m1'.heap u j)

/-- Joint postcondition of a `User` map on a fresh subtree together
with the behaviour of a subsequent unmap of the same range (proof
helper). -/
def JointSpec (l t p e : Nat) (m : Mem) (k : Nat) (m1 : Mem) : Prop :=
  k = min (e - p) (512 ^ l - p % 512 ^ l) ∧
  m.next ≤ m1.next ∧
  m1.allocCount = m.allocCount + (m1.next - m.next) ∧
  m1.freeList = m.freeList ∧
  (∀ u j, u < PAGE_SIZE * m.next → u ≠ t → m1.heap u j = m.heap u j) ∧
  (∀ j, j < pageTableIndex (PAGE_SIZE * p) l → m1.heap t j = m.heap t j) ∧
  UnmapClause l t p e m k m1

/-- Model of `AddressSpace::new(depth)`: allocate and zero a root table. -/
def AddressSpace.new (depth : Nat) (m : Mem) : AddressSpace × Mem :=
  let r := alloc m
  (⟨PAGE_SIZE * r.1, depth⟩, zeroTable r.2 (PAGE_SIZE * r.1))

/-- Model of `AddressSpace::from_other`: a fresh space deep-copied from `other`. -/
def AddressSpace.from_other (other : AddressSpace) (m : Mem) : AddressSpace × Mem :=
  let am := AddressSpace.new other.depth m
  (am.1, copyTable other.depth other.rootTable am.1.rootTable am.2)

/-- Model of `AddressSpace::page_table_address`. -/
def AddressSpace.page_table_address (a : AddressSpace) : Nat := a.rootTable

/-- The dummy empty frame range `AddressSpace::map` passes down
(`PhysAddr::zero()` to `PhysAddr::zero()`). -/
def emptyFrames : PhysFrameRange := ⟨0, 0⟩

/-- Model of `AddressSpace::map`. -/
def AddressSpace.map (a : AddressSpace) (m : Mem) (pages : PageRange) (space : MemorySpace)
    (flags : Nat) : Option Mem :=
  match mapInTable space flags a.depth a.rootTable emptyFrames pages m with
  | some km => some km.2
  | none => none

/-- Model of `AddressSpace::map_physical`: the check
`assert_eq!(frames.end - frames.start, pages.end - pages.start)` is the
`none` case. -/
def AddressSpace.map_physical (a : AddressSpace) (m : Mem) (frames : PhysFrameRange)
    (pages : PageRange) (space : MemorySpace) (flags : Nat) : Option Mem :=
  if frames.stop - frames.start = pages.stop - pages.start then
    match mapInTable space flags a.depth a.rootTable frames pages m with
    | some km => some km.2
    | none => none
  else none

/-- Model of `AddressSpace::translate`. -/
def AddressSpace.translate (a : AddressSpace) (m : Mem) (addr : Nat) : Option Nat :=
  translateInTable a.depth m a.rootTable addr

/-- Model of `AddressSpace::unmap`. -/
def AddressSpace.unmap (a : AddressSpace) (m : Mem) (pages : PageRange) : Mem :=
  (unmapInTable a.depth a.rootTable pages m).2

/-- Operations that can be issued on an address space after its
construction (`translate` reads only; `fromOtherSource` uses the space
as the source of `AddressSpace::from_other`). -/
inductive AOp where
  | map (pages : PageRange) (space : MemorySpace) (flags : Nat)
  | mapPhysical (frames : PhysFrameRange) (pages : PageRange) (space : MemorySpace) (flags : Nat)
  | unmap (pages : PageRange)
  | translate (addr : Nat)
  | fromOtherSource

/-- Apply one operation to an address space and the machine state.  A
panicking (`none`) map leaves the state as it was when the abort hit;
for root-pointer immutability only the space component matters. -/
def applyOp (sm : AddressSpace × Mem) (op : AOp) : AddressSpace × Mem :=
  match op with
  | AOp.map pages space flags =>
    match AddressSpace.map sm.1 sm.2 pages space flags with
    | some m2 => (sm.1, m2)
    | none => sm
  | AOp.mapPhysical frames pages space flags =>
    match AddressSpace.map_physical sm.1 sm.2 frames pages space flags with
    | some m2 => (sm.1, m2)
    | none => sm
  | AOp.unmap pages => (sm.1, AddressSpace.unmap sm.1 sm.2 pages)
  | AOp.translate _ => sm
  | AOp.fromOtherSource => (sm.1, (AddressSpace.from_other sm.1 sm.2).2)

/-- Model of `VmaType`. -/
inductive VmaType where
  | Code
  | Heap
  | Stack
deriving DecidableEq, Repr

/-- Model of `VirtualMemoryArea`. -/
structure VirtualMemoryArea where
  range : PageRange
  typ : VmaType
deriving DecidableEq, Repr

/-- Model of `VirtualMemoryArea::from_address`: here `Page::from_start_address(start)`
fails (the source `expect`s, i.e. aborts) unless `start` is 4 KiB
aligned; the range covers `size / PAGE_SIZE` pages. -/
def VirtualMemoryArea.from_address (start size : Nat) (typ : VmaType) :
    Option VirtualMemoryArea :=
  if start % PAGE_SIZE = 0 then
    some ⟨⟨start / PAGE_SIZE, start / PAGE_SIZE + size / PAGE_SIZE⟩, typ⟩
  else none

/-! ### Concrete machine states used to evaluate the model -/

/-- An initial machine whose memory is all zero and whose allocator
hands out frames from number 1 on. -/
def mem0 : Mem := ⟨fun _ _ => Entry.unusedE, 1, 0, []⟩

/-- An initial machine whose memory holds a nonzero bit pattern
everywhere (freshly allocated frames are not zeroed by the allocator, so
their prior contents are arbitrary); the allocator hands out frames from
number 1 on. -/
def memG : Mem := ⟨fun _ _ => ⟨4096000, 7⟩, 1, 0, []⟩

/-- A fresh depth-2 address space over the all-zero machine. -/
def space2 : AddressSpace × Mem := AddressSpace.new 2 mem0

/-- A fresh depth-3 address space over the garbage-filled machine. -/
def space3G : AddressSpace × Mem := AddressSpace.new 3 memG

/-- The depth-3 space with one user page mapped at page number 0. -/
def c2Mapped : Mem :=
  (AddressSpace.map space3G.1 space3G.2 ⟨0, 1⟩ MemorySpace.User 3).getD space3G.2

/-- A clone of `c2Mapped` made by `from_other`. -/
def c2Clone : AddressSpace × Mem := AddressSpace.from_other space3G.1 c2Mapped

/-- The depth-2 space with one user page mapped at page number 517
(level-2 index 1, level-1 index 5). -/
def c3Mapped : Mem :=
  (AddressSpace.map space2.1 space2.2 ⟨517, 518⟩ MemorySpace.User 3).getD space2.2

/-- State `c3Mapped` after unmapping the page range [0, 513), which contains
no mapped page but spans the unused level-2 entry 0. -/
def c3After : Mem := AddressSpace.unmap space2.1 c3Mapped ⟨0, 513⟩

/-- The depth-2 space with one user page mapped at page number 512
(level-2 index 1, level-1 index 0). -/
def c4Mapped : Mem :=
  (AddressSpace.map space2.1 space2.2 ⟨512, 513⟩ MemorySpace.User 3).getD space2.2

/-- State `c4Mapped` after unmapping the single-page range [0, 1), in which no
page is mapped. -/
def c4After : Mem := AddressSpace.unmap space2.1 c4Mapped ⟨0, 1⟩

/-- The depth-2 space after a map of the empty page range [0, 0), which
leaves behind an empty level-1 table. -/
def c5Empty : Mem :=
  (AddressSpace.map space2.1 space2.2 ⟨0, 0⟩ MemorySpace.User 3).getD space2.2

/-- State `c5Empty` after map([0, 1), User). -/
def c5AfterMap : Mem :=
  (AddressSpace.map space2.1 c5Empty ⟨0, 1⟩ MemorySpace.User 3).getD c5Empty

/-- State `c5AfterMap` after unmap([0, 1)). -/
def c5AfterUnmap : Mem := AddressSpace.unmap space2.1 c5AfterMap ⟨0, 1⟩

/-- The depth-2 space after map([0, 1), Kernel, flags = 0): the
installed leaf entry is the all-zero word. -/
def c6Bad : Mem :=
  (AddressSpace.map space2.1 space2.2 ⟨0, 1⟩ MemorySpace.Kernel 0).getD space2.2

/-- The depth-2 space after map([0, 513), Kernel, flags = 0), a range
that straddles the level-1 table boundary at page 512. -/
def c7Bad : Mem :=
  (AddressSpace.map space2.1 space2.2 ⟨0, 513⟩ MemorySpace.Kernel 0).getD space2.2

/-! ### Theorems -/

set_option maxRecDepth 100000

/-- C1: `map_physical` with `|frames| == |pages|` does not install the
k-th frame at the k-th page whenever `pages.start` has a nonzero level-1
index: `map_user_physical` builds its frame iterator with
`.skip(start_index)`, so here (one page at level-1 index 1, one frame,
equal lengths) the iterator is exhausted and the `unwrap` panics
(`none`) instead of installing frame 10 at page 1. -/
theorem C1_map_physical_skips_frames :
    AddressSpace.map_physical space2.1 space2.2 ⟨10, 11⟩ ⟨1, 2⟩ MemorySpace.User 3 = none := by
  rfl

/-- C2: the space built by `from_other` does not translate every address
like its source.  `copy_table` never zeroes the intermediate tables it
allocates, so entries that are unused in the source keep whatever bit
pattern the fresh frame held.  At address `4096 * 512` (level-3 index 0,
level-2 index 1, level-1 index 0) the source returns `none` but the
clone follows the residual garbage entry and returns `some 4096000`. -/
theorem C2_from_other_garbage :
    AddressSpace.translate space3G.1 c2Mapped (4096 * 512) = none ∧
      AddressSpace.translate c2Clone.1 c2Clone.2 (4096 * 512) = some 4096000 ∧
      AddressSpace.translate space3G.1 c2Mapped 0 =
        AddressSpace.translate c2Clone.1 c2Clone.2 0 := by
  exact ⟨by rfl, by rfl, by rfl⟩

/-- C3: after `unmap(R)` a page outside R does not always retain its
prior translation.  With page 517 mapped and R = [0, 513) (which spans
the unused level-2 entry 0), `unmap_in_table` skips the unused entry
without advancing `pages.start`, then clears 512 entries of the level-1
table under level-2 entry 1 — destroying the mapping of page 517, which
lies outside R. -/
theorem C3_unmap_destroys_outside :
    AddressSpace.translate space2.1 c3Mapped (4096 * 517) = some 12288 ∧
      AddressSpace.translate space2.1 c3After (4096 * 517) = none := by
  exact ⟨by rfl, by rfl⟩

/-- C4: `unmap` of a range in which no page is mapped is not a no-op.
With page 512 mapped and R = [0, 1) entirely unmapped, the skipped
unused level-2 entry 0 leaves `pages.start` stale, so the walker frees
the frame of page 512 (outside R, the only mapped page) and the
now-empty level-1 table: two `free` calls and a changed translation. -/
theorem C4_unmap_unmapped_not_noop :
    AddressSpace.translate space2.1 c4Mapped 0 = none ∧
      AddressSpace.translate space2.1 c4Mapped (4096 * 512) = some 12288 ∧
      AddressSpace.translate space2.1 c4After (4096 * 512) = none ∧
      c4After.freeList.length = c4Mapped.freeList.length + 2 := by
  exact ⟨by rfl, by rfl, by rfl, by rfl⟩

/-- C5 counterexample: `map(R); unmap(R)` on an unmapped range does not
always restore the allocator.  After a prior empty-range map left an
empty level-1 table behind, mapping [0, 1) allocates exactly one frame
(the leaf), but unmapping [0, 1) frees two (the leaf and the
pre-existing table, which `unmap_in_table` reclaims because it is now
empty), so the free-frame count ends one higher than before the map. -/
theorem C5_counterexample :
    AddressSpace.translate space2.1 c5Empty 0 = none ∧
      c5AfterMap.allocCount = c5Empty.allocCount + 1 ∧
      c5AfterUnmap.freeList.length = c5AfterMap.freeList.length + 2 := by
  exact ⟨by rfl, by rfl, by rfl⟩

/-- C6 counterexample: identity mapping is not established for every
page and every flag value.  `map([0, 1), Kernel, flags = 0)` writes the
entry `(addr = 0, flags = 0)` for page 0, which is exactly the unused
bit pattern, so `translate(0)` returns `none` instead of `some 0`. -/
theorem C6_counterexample :
    AddressSpace.map space2.1 space2.2 ⟨0, 1⟩ MemorySpace.Kernel 0 = some c6Bad ∧
      AddressSpace.translate space2.1 c6Bad 0 = none := by
  exact ⟨rfl, by rfl⟩

/-- C7 counterexample: a map call whose range straddles a level-1 table
boundary does not leave every page of the range translating
successfully.  `map([0, 513), Kernel, flags = 0)` straddles the boundary
at page 512, yet page 0's entry is the all-zero word, so `translate(0)`
returns `none` (page 1 meanwhile translates fine). -/
theorem C7_counterexample :
    AddressSpace.map space2.1 space2.2 ⟨0, 513⟩ MemorySpace.Kernel 0 = some c7Bad ∧
      AddressSpace.translate space2.1 c7Bad 0 = none ∧
      AddressSpace.translate space2.1 c7Bad 4096 = some 4096 := by
  exact ⟨rfl, by rfl, by rfl⟩

/-- C8: `VirtualMemoryArea::from_address(addr, size, t)` fails (aborts
with the misalignment error) if and only if `addr` is not a multiple of
4096; when `addr` is page-aligned it returns normally. -/
theorem C8_from_address_iff (start size : Nat) (typ : VmaType) :
    VirtualMemoryArea.from_address start size typ = none ↔ ¬ (4096 ∣ start) := by
  rw [Nat.dvd_iff_mod_eq_zero]
  by_cases h : start % 4096 = 0 <;>
    simp [VirtualMemoryArea.from_address, PAGE_SIZE, h]

/-- Applying any single operation leaves the `AddressSpace` value — in
particular its root-table pointer — unchanged; only the machine state
changes. -/
theorem applyOp_fst (sm : AddressSpace × Mem) (op : AOp) : (applyOp sm op).1 = sm.1 := by
  cases op with
  | map pages space flags =>
    simp only [applyOp]
    cases AddressSpace.map sm.1 sm.2 pages space flags <;> rfl
  | mapPhysical frames pages space flags =>
    simp only [applyOp]
    cases AddressSpace.map_physical sm.1 sm.2 frames pages space flags <;> rfl
  | unmap pages => rfl
  | translate addr => rfl
  | fromOtherSource => rfl

/-- C9: the value returned by `page_table_address()` is fixed at
construction: it is unchanged by any subsequent sequence of `map`,
`map_physical`, `unmap`, `translate`, or `from_other`-as-source calls on
that space (the root pointer is set once and never mutated). -/
theorem C9_root_pointer_immutable (sm : AddressSpace × Mem) (ops : List AOp) :
    ((ops.foldl applyOp sm).1).page_table_address = sm.1.page_table_address := by
  induction ops generalizing sm with
  | nil => rfl
  | cons op rest ih =>
    rw [List.foldl_cons, ih (applyOp sm op), applyOp_fst]

/-! ### Basic lemmas about the machine state -/

theorem isUnused_iff (e : Entry) : e.isUnused = true ↔ e = Entry.unusedE := by
  cases e with
  | mk a f => simp [Entry.isUnused, Entry.unusedE]

theorem isUnused_unusedE : Entry.unusedE.isUnused = true := rfl

theorem isUnused_setFrame_false (frame flags : Nat) (h : 1 ≤ frame) :
    (Entry.setFrame frame flags).isUnused = false := by
  simp only [Entry.setFrame, Entry.isUnused, PAGE_SIZE, Bool.and_eq_false_iff]
  left
  simp only [beq_eq_false_iff_ne, ne_eq]
  omega

@[simp] theorem writeEntry_next (m : Mem) (t i : Nat) (e : Entry) :
    (writeEntry m t i e).next = m.next := rfl

@[simp] theorem writeEntry_allocCount (m : Mem) (t i : Nat) (e : Entry) :
    (writeEntry m t i e).allocCount = m.allocCount := rfl

@[simp] theorem writeEntry_freeList (m : Mem) (t i : Nat) (e : Entry) :
    (writeEntry m t i e).freeList = m.freeList := rfl

@[simp] theorem zeroTable_next (m : Mem) (t : Nat) : (zeroTable m t).next = m.next := rfl

@[simp] theorem zeroTable_allocCount (m : Mem) (t : Nat) :
    (zeroTable m t).allocCount = m.allocCount := rfl

@[simp] theorem zeroTable_freeList (m : Mem) (t : Nat) :
    (zeroTable m t).freeList = m.freeList := rfl

@[simp] theorem free_heap (m : Mem) (f : Nat) : (free m f).heap = m.heap := rfl

@[simp] theorem free_next (m : Mem) (f : Nat) : (free m f).next = m.next := rfl

@[simp] theorem free_allocCount (m : Mem) (f : Nat) : (free m f).allocCount = m.allocCount := rfl

@[simp] theorem free_freeList (m : Mem) (f : Nat) : (free m f).freeList = f :: m.freeList := rfl

theorem writeEntry_heap_self (m : Mem) (t i : Nat) (e : Entry) :
    (writeEntry m t i e).heap t i = e := by
  simp [writeEntry]

theorem writeEntry_heap_ne_t (m : Mem) (t i : Nat) (e : Entry) (u j : Nat) (h : u ≠ t) :
    (writeEntry m t i e).heap u j = m.heap u j := by
  simp [writeEntry, h]

theorem writeEntry_heap_ne_i (m : Mem) (t i : Nat) (e : Entry) (u j : Nat) (h : j ≠ i) :
    (writeEntry m t i e).heap u j = m.heap u j := by
  simp only [writeEntry]
  by_cases hu : u = t <;> simp [hu, h]

theorem zeroTable_heap_self (m : Mem) (t j : Nat) :
    (zeroTable m t).heap t j = Entry.unusedE := by
  simp [zeroTable]

theorem zeroTable_heap_ne (m : Mem) (t u j : Nat) (h : u ≠ t) :
    (zeroTable m t).heap u j = m.heap u j := by
  simp [zeroTable, h]

/-! ### Index arithmetic -/

theorem pageTableIndex_eq (v l : Nat) :
    pageTableIndex v (l + 1) = v / 4096 / 512 ^ l % 512 := by
  have h9 : (2 : Nat) ^ (9 * l) = 512 ^ l := by
    rw [pow_mul]
    norm_num
  simp only [pageTableIndex, Nat.shiftRight_eq_div_pow, Nat.add_sub_cancel, h9]

theorem pageTableIndex_page (p l : Nat) :
    pageTableIndex (PAGE_SIZE * p) (l + 1) = p / 512 ^ l % 512 := by
  rw [pageTableIndex_eq]
  simp [PAGE_SIZE, Nat.mul_div_cancel_left]

theorem pageTableIndex_lt (v l : Nat) : pageTableIndex v l < 512 :=
  Nat.mod_lt _ (by norm_num)

theorem PAGE_SIZE_pos : 0 < PAGE_SIZE := by norm_num [PAGE_SIZE]

/-! ### Mapping an empty page range (C10) -/

/-- Core induction for the empty-range map: on a subtree whose table `t`
is entirely unused, `map_in_table` with an empty page range consumes no
page, allocates exactly `level - 1` intermediate-table frames along the
path of `pages.start`, frees nothing, touches no other previously
allocated frame, and afterwards every address still translates to
`none` below `t`. -/
theorem mapInTable_empty (space : MemorySpace) (flags : Nat) :
    ∀ (l t p : Nat) (m : Mem),
      1 ≤ m.next → t < PAGE_SIZE * m.next →
      (∀ j, (m.heap t j).isUnused = true) →
      ∃ m2, mapInTable space flags l t emptyFrames ⟨p, p⟩ m = some (0, m2) ∧
        m2.next = m.next + (l - 1) ∧
        m2.allocCount = m.allocCount + (l - 1) ∧
        m2.freeList = m.freeList ∧
        (∀ u j, u < PAGE_SIZE * m.next → u ≠ t → m2.heap u j = m.heap u j) ∧
        (∀ addr, translateInTable l m2 t addr = none) := by
  intro l
  induction l using Nat.strong_induction_on with
  | _ l ih =>
  match l, ih with
  | 0, _ =>
    intro t p m hnext ht hz
    refine ⟨m, ?_, by simp, by simp, rfl, fun u j _ _ => rfl, ?_⟩
    · cases space with
      | Kernel =>
        simp [mapInTable, mapLeafLevel, identityMapKernel, identityMapKernelLoop]
      | User =>
        simp [mapInTable, mapLeafLevel, emptyFrames, mapUser, mapUserLoop]
    · intro addr
      simp [translateInTable, hz]
  | 1, _ =>
    intro t p m hnext ht hz
    refine ⟨m, ?_, by simp, by simp, rfl, fun u j _ _ => rfl, ?_⟩
    · cases space with
      | Kernel =>
        simp [mapInTable, mapLeafLevel, identityMapKernel, identityMapKernelLoop]
      | User =>
        simp [mapInTable, mapLeafLevel, emptyFrames, mapUser, mapUserLoop]
    · intro addr
      simp [translateInTable, hz]
  | l + 2, ih =>
    intro t p m hnext ht hz
    set i0 := pageTableIndex (PAGE_SIZE * p) (l + 2) with hi0
    have hi0lt : i0 < 512 := pageTableIndex_lt _ _
    obtain ⟨f, hf⟩ : ∃ f, 512 - i0 = f + 1 := ⟨511 - i0, by omega⟩
    -- the state after allocating and zeroing the fresh child table
    set c := PAGE_SIZE * m.next with hc
    have htc : t ≠ c := Nat.ne_of_lt ht
    set mA := zeroTable (writeEntry { m with next := m.next + 1, allocCount := m.allocCount + 1 }
      t i0 (Entry.setFrame m.next flags)) c with hmA
    have hAnext : mA.next = m.next + 1 := rfl
    have hcA : c < PAGE_SIZE * mA.next := by
      rw [hAnext, Nat.mul_succ, ← hc]
      have := PAGE_SIZE_pos
      omega
    have hAheap_t : ∀ j, j ≠ i0 → mA.heap t j = m.heap t j := by
      intro j hj
      rw [hmA, zeroTable_heap_ne _ _ _ _ htc, writeEntry_heap_ne_i _ _ _ _ _ _ hj]
    have hAheap_ti0 : mA.heap t i0 = Entry.setFrame m.next flags := by
      rw [hmA, zeroTable_heap_ne _ _ _ _ htc, writeEntry_heap_self]
    have hAheap_c : ∀ j, (mA.heap c j).isUnused = true := by
      intro j
      rw [hmA, zeroTable_heap_self]
      rfl
    have hAheap_other : ∀ u j, u ≠ t → u ≠ c → mA.heap u j = m.heap u j := by
      intro u j hu huc
      rw [hmA, zeroTable_heap_ne _ _ _ _ huc, writeEntry_heap_ne_t _ _ _ _ _ _ hu]
    -- apply the induction hypothesis to the fresh child
    obtain ⟨m2, hrec, h2next, h2alloc, h2free, h2frame, h2trans⟩ :=
      ih (l + 1) (by omega) c p mA (by omega) hcA hAheap_c
    have hfr : ∀ u, u < c → u < PAGE_SIZE * mA.next := by
      intro u hu
      omega
    refine ⟨m2, ?_, by omega, ?_, ?_, ?_, ?_⟩
    · -- evaluate one iteration of the map loop, then break
      simp only [mapInTable, ← hi0, hf]
      simp only [mapLoop, hz i0, if_true, alloc]
      rw [← hc, ← hmA, hrec]
      simp [emptyFrames]
    · -- allocation count
      have hAc : mA.allocCount = m.allocCount + 1 := rfl
      omega
    · rw [h2free, hmA]
      simp
    · -- frame condition
      intro u j hu hut
      rw [h2frame u j (hfr u hu) (Nat.ne_of_lt hu), hAheap_other u j hut (Nat.ne_of_lt hu)]
    · -- translation is still none everywhere
      intro addr
      simp only [translateInTable]
      set jx := pageTableIndex (addr / PAGE_SIZE * PAGE_SIZE) (l + 2) with hjx
      by_cases hji : jx = i0
      · have hm2t : m2.heap t jx = Entry.setFrame m.next flags := by
          rw [h2frame t jx (hfr t ht) htc, hji, hAheap_ti0]
        rw [hm2t, isUnused_setFrame_false _ _ hnext]
        simp only [Bool.false_eq_true, if_false]
        rw [show (Entry.setFrame m.next flags).addr = c by simp [Entry.setFrame, hc]]
        exact h2trans addr
      · have hm2t : m2.heap t jx = m.heap t jx := by
          rw [h2frame t jx (hfr t ht) htc, hAheap_t jx hji]
        rw [hm2t, hz jx]
        simp


/-- C10: on a fresh AddressSpace of depth `d ≥ 2`, `map` with an empty
page range installs no leaf entry (every address still translates to
`none`) yet is not a no-op: along the path of `pages.start` it allocates
and installs one fresh intermediate-table frame at each of the `d - 1`
levels below the root (on a fresh space every entry on the path is
unused), consuming `d - 1 ≥ 1` allocator frames for a mapping of zero
pages. -/
theorem C10_empty_map_allocates (d p flags : Nat) (space : MemorySpace) (m0 : Mem)
    (hd : 2 ≤ d) (hnext : 1 ≤ m0.next) :
    ∃ m2,
      AddressSpace.map (AddressSpace.new d m0).1 (AddressSpace.new d m0).2 ⟨p, p⟩ space flags =
        some m2 ∧
      m2.allocCount = (AddressSpace.new d m0).2.allocCount + (d - 1) ∧
      1 ≤ d - 1 ∧
      m2.freeList = (AddressSpace.new d m0).2.freeList ∧
      ∀ addr, AddressSpace.translate (AddressSpace.new d m0).1 m2 addr = none := by
  have hroot : (AddressSpace.new d m0).1.rootTable = PAGE_SIZE * m0.next := rfl
  have hdepth : (AddressSpace.new d m0).1.depth = d := rfl
  have hN : (AddressSpace.new d m0).2.next = m0.next + 1 := rfl
  obtain ⟨m2, hmap, hnext2, halloc, hfree, _, htrans⟩ :=
    mapInTable_empty space flags d (PAGE_SIZE * m0.next) p (AddressSpace.new d m0).2
      (by omega)
      (by rw [hN, Nat.mul_succ]; have := PAGE_SIZE_pos; omega)
      (fun j => by
        show ((zeroTable _ (PAGE_SIZE * m0.next)).heap (PAGE_SIZE * m0.next) j).isUnused = true
        rw [zeroTable_heap_self]
        rfl)
  refine ⟨m2, ?_, halloc, by omega, hfree, ?_⟩
  · show (match mapInTable space flags (AddressSpace.new d m0).1.depth
      (AddressSpace.new d m0).1.rootTable emptyFrames ⟨p, p⟩ (AddressSpace.new d m0).2 with
      | some km => some km.2 | none => none) = some m2
    rw [hdepth, hroot, hmap]
  · intro addr
    show translateInTable (AddressSpace.new d m0).1.depth m2
      (AddressSpace.new d m0).1.rootTable addr = none
    rw [hdepth, hroot]
    exact htrans addr

/-- Witness: the C10 theorem applied at depth 4, page 12345, on the
all-zero machine. -/
theorem C10_empty_map_allocates_witness :
    2 ≤ 4 ∧ 1 ≤ mem0.next ∧
      (∃ m2,
        AddressSpace.map (AddressSpace.new 4 mem0).1 (AddressSpace.new 4 mem0).2 ⟨12345, 12345⟩
          MemorySpace.User 3 = some m2 ∧
        m2.allocCount = (AddressSpace.new 4 mem0).2.allocCount + (4 - 1) ∧
        1 ≤ 4 - 1 ∧
        m2.freeList = (AddressSpace.new 4 mem0).2.freeList ∧
        ∀ addr, AddressSpace.translate (AddressSpace.new 4 mem0).1 m2 addr = none) :=
  ⟨by norm_num, by norm_num [mem0],
    C10_empty_map_allocates 4 12345 3 MemorySpace.User mem0 (by norm_num) (by norm_num [mem0])⟩

/-! ### Framing the translation walk -/

theorem translate_frame :
    ∀ (l : Nat) (m m2 : Mem) (t addr : Nat),
      (∀ c ∈ transPath l m t addr, m2.heap c.1 c.2 = m.heap c.1 c.2) →
      translateInTable l m2 t addr = translateInTable l m t addr ∧
        transPath l m2 t addr = transPath l m t addr := by
  intro l
  induction l using Nat.strong_induction_on with
  | _ l ih =>
  match l, ih with
  | 0, _ =>
    intro m m2 t addr hagree
    have h := hagree (t, pageTableIndex (addr / PAGE_SIZE * PAGE_SIZE) 1) (by simp [transPath])
    simp only [translateInTable, transPath] at *
    rw [h]
    simp
  | 1, _ =>
    intro m m2 t addr hagree
    have h := hagree (t, pageTableIndex (addr / PAGE_SIZE * PAGE_SIZE) 1) (by simp [transPath])
    simp only [translateInTable, transPath] at *
    rw [h]
    simp
  | l + 2, ih =>
    intro m m2 t addr hagree
    set idx := pageTableIndex (addr / PAGE_SIZE * PAGE_SIZE) (l + 2) with hidx
    have hhead : (t, idx) ∈ transPath (l + 2) m t addr := by
      simp only [transPath, ← hidx]
      by_cases h : (m.heap t idx).isUnused <;> simp [h]
    have h := hagree (t, idx) hhead
    simp only at h
    by_cases hun : (m.heap t idx).isUnused = true
    · constructor
      · simp only [translateInTable, ← hidx, h, hun, if_true]
      · simp only [transPath, ← hidx, h, hun, if_true]
    · have htail : ∀ c ∈ transPath (l + 1) m (m.heap t idx).addr addr,
          m2.heap c.1 c.2 = m.heap c.1 c.2 := by
        intro c hc
        refine hagree c ?_
        simp only [transPath, ← hidx, hun]
        simp [hc]
      obtain ⟨ht1, ht2⟩ := ih (l + 1) (by omega) m m2 (m.heap t idx).addr addr htail
      constructor
      · simp only [translateInTable, ← hidx, h, hun, if_false]
        rw [ht1]
      · simp only [transPath, ← hidx, h, hun, if_false]
        rw [ht2]


/-! ### Leaf-level map lemmas -/

theorem align_self (q off : Nat) (hoff : off < PAGE_SIZE) :
    (PAGE_SIZE * q + off) / PAGE_SIZE * PAGE_SIZE = PAGE_SIZE * q := by
  rw [Nat.mul_add_div PAGE_SIZE_pos, Nat.div_eq_of_lt hoff, Nat.add_zero, Nat.mul_comm]

theorem idx1_eq (q : Nat) : pageTableIndex (PAGE_SIZE * q) 1 = q % 512 := by
  have h := pageTableIndex_page q 0
  simpa using h

/-- What `map_user`'s loop does: install `n` freshly allocated frames at
entries `i, i+1, …`, leaving everything else untouched. -/
theorem mapUserLoop_spec (t flags : Nat) :
    ∀ (n i : Nat) (m : Mem),
      (mapUserLoop t flags i n m).next = m.next + n ∧
      (mapUserLoop t flags i n m).allocCount = m.allocCount + n ∧
      (mapUserLoop t flags i n m).freeList = m.freeList ∧
      (∀ u j, u ≠ t → (mapUserLoop t flags i n m).heap u j = m.heap u j) ∧
      (∀ j, j < i ∨ i + n ≤ j → (mapUserLoop t flags i n m).heap t j = m.heap t j) ∧
      (∀ k, k < n →
        (mapUserLoop t flags i n m).heap t (i + k) = Entry.setFrame (m.next + k) flags) := by
  intro n
  induction n with
  | zero =>
    intro i m
    exact ⟨rfl, rfl, rfl, fun _ _ _ => rfl, fun _ _ => rfl, fun k hk => absurd hk (by omega)⟩
  | succ n ihn =>
    intro i m
    set mB := writeEntry { m with next := m.next + 1, allocCount := m.allocCount + 1 } t i
      (Entry.setFrame m.next flags) with hmB
    have hshow : mapUserLoop t flags i (n + 1) m = mapUserLoop t flags (i + 1) n mB := by
      simp only [mapUserLoop, alloc, hmB]
    obtain ⟨h1, h2, h3, h4, h5, h6⟩ := ihn (i + 1) mB
    have hBnext : mB.next = m.next + 1 := rfl
    have hBa : mB.allocCount = m.allocCount + 1 := rfl
    refine ⟨by rw [hshow, h1, hBnext]; omega, by rw [hshow, h2, hBa]; omega,
      by rw [hshow, h3]; rfl, ?_, ?_, ?_⟩
    · intro u j hu
      rw [hshow, h4 u j hu, hmB, writeEntry_heap_ne_t _ _ _ _ _ _ hu]
    · intro j hj
      rw [hshow, h5 j (by omega), hmB, writeEntry_heap_ne_i _ _ _ _ _ _ (by omega)]
    · intro k hk
      match k, hk with
      | 0, _ =>
        rw [hshow, h5 (i + 0) (by omega), hmB]
        simp [writeEntry]
      | k + 1, hk =>
        have := h6 k (by omega)
        rw [hshow, show i + (k + 1) = (i + 1) + k by omega, this, hBnext]
        congr 1
        omega

/-- What `identity_map_kernel`'s loop does: install the identity frames
`fa, fa + PAGE_SIZE, …` at entries `i, i+1, …`. -/
theorem identityMapKernelLoop_spec (t flags : Nat) :
    ∀ (n i fa : Nat) (m : Mem),
      (identityMapKernelLoop t flags i fa n m).next = m.next ∧
      (identityMapKernelLoop t flags i fa n m).allocCount = m.allocCount ∧
      (identityMapKernelLoop t flags i fa n m).freeList = m.freeList ∧
      (∀ u j, u ≠ t → (identityMapKernelLoop t flags i fa n m).heap u j = m.heap u j) ∧
      (∀ j, j < i ∨ i + n ≤ j → (identityMapKernelLoop t flags i fa n m).heap t j = m.heap t j) ∧
      (∀ k, k < n →
        (identityMapKernelLoop t flags i fa n m).heap t (i + k) =
          Entry.setAddr (fa + PAGE_SIZE * k) flags) := by
  intro n
  induction n with
  | zero =>
    intro i fa m
    exact ⟨rfl, rfl, rfl, fun _ _ _ => rfl, fun _ _ => rfl, fun k hk => absurd hk (by omega)⟩
  | succ n ihn =>
    intro i fa m
    set mB := writeEntry m t i (Entry.setAddr fa flags) with hmB
    have hshow : identityMapKernelLoop t flags i fa (n + 1) m =
        identityMapKernelLoop t flags (i + 1) (fa + PAGE_SIZE) n mB := by
      simp only [identityMapKernelLoop, hmB]
    obtain ⟨h1, h2, h3, h4, h5, h6⟩ := ihn (i + 1) (fa + PAGE_SIZE) mB
    refine ⟨by rw [hshow, h1]; rfl, by rw [hshow, h2]; rfl, by rw [hshow, h3]; rfl, ?_, ?_, ?_⟩
    · intro u j hu
      rw [hshow, h4 u j hu, hmB, writeEntry_heap_ne_t _ _ _ _ _ _ hu]
    · intro j hj
      rw [hshow, h5 j (by omega), hmB, writeEntry_heap_ne_i _ _ _ _ _ _ (by omega)]
    · intro k hk
      match k, hk with
      | 0, _ =>
        rw [hshow, h5 (i + 0) (by omega), hmB]
        simp [writeEntry]
      | k + 1, hk =>
        have := h6 k (by omega)
        rw [hshow, show i + (k + 1) = (i + 1) + k by omega, this]
        congr 1
        ring


theorem isUnused_setAddr_false_of_flags (a flags : Nat) (h : flags ≠ 0) :
    (Entry.setAddr a flags).isUnused = false := by
  simp only [Entry.setAddr, Entry.isUnused, Bool.and_eq_false_iff]
  right
  simpa [beq_eq_false_iff_ne] using h

/-- The leaf level of the map walker satisfies the map postcondition
(with the empty dummy frame range, i.e. for `AddressSpace::map`). -/
theorem mapLeafLevel_spec (space : MemorySpace) (flags : Nat)
    (hok : space = MemorySpace.User ∨ flags ≠ 0) (t p e : Nat) (m : Mem)
    (hnext : 1 ≤ m.next) :
    ∃ k m2, mapLeafLevel space flags t emptyFrames ⟨p, e⟩ m = some (k, m2) ∧
      MapSpec space 1 t p e m k m2 := by
  have hcnt : min (e - p) (512 - p % 512) = min (e - p) (512 ^ 1 - p % 512 ^ 1) := by
    norm_num
  cases space with
  | Kernel =>
    have hflags : flags ≠ 0 := by
      rcases hok with h | h
      · exact absurd h (by simp)
      · exact h
    set cnt := min (e - p) (512 - p % 512) with hcntdef
    set mL := identityMapKernelLoop t flags (p % 512) (PAGE_SIZE * p) cnt m with hmL
    have heval : mapLeafLevel MemorySpace.Kernel flags t emptyFrames ⟨p, e⟩ m =
        some (cnt, mL) := by
      simp only [mapLeafLevel, identityMapKernel, idx1_eq, hmL, hcntdef]
    obtain ⟨h1, h2, h3, h4, h5, h6⟩ := identityMapKernelLoop_spec t flags cnt (p % 512)
      (PAGE_SIZE * p) m
    rw [← hmL] at h1 h2 h3 h4 h5 h6
    refine ⟨cnt, mL, heval, hcnt ▸ rfl, by omega, by omega, h3, fun u j _ hu => h4 u j hu,
      ?_, ?_⟩
    · intro j hj
      exact h5 j (Or.inl (by rwa [idx1_eq] at hj))
    · intro q off hpq hqk hoff
      have hq512 : q % 512 = p % 512 + (q - p) := by
        have : cnt ≤ 512 - p % 512 := by rw [hcntdef]; omega
        omega
      have hentry : mL.heap t (q % 512) =
          Entry.setAddr (PAGE_SIZE * q) flags := by
        rw [hq512]
        have := h6 (q - p) (by omega)
        rw [this]
        congr 1
        have : PAGE_SIZE * p + PAGE_SIZE * (q - p) = PAGE_SIZE * q := by
          rw [← Nat.mul_add]
          congr 1
          omega
        omega
      have halign : (PAGE_SIZE * q + off) / PAGE_SIZE * PAGE_SIZE = PAGE_SIZE * q :=
        align_self q off hoff
      have hidx : pageTableIndex ((PAGE_SIZE * q + off) / PAGE_SIZE * PAGE_SIZE) 1 = q % 512 := by
        rw [halign, idx1_eq]
      refine ⟨PAGE_SIZE * q + off, ?_, fun _ => rfl, ?_⟩
      · show (if (mL.heap t (pageTableIndex ((PAGE_SIZE * q + off) / PAGE_SIZE * PAGE_SIZE) 1)).isUnused = true
          then none
          else some ((mL.heap t (pageTableIndex ((PAGE_SIZE * q + off) / PAGE_SIZE * PAGE_SIZE) 1)).addr +
            ((PAGE_SIZE * q + off) - (PAGE_SIZE * q + off) / PAGE_SIZE * PAGE_SIZE))) = _
        rw [hidx, hentry, isUnused_setAddr_false_of_flags _ _ hflags]
        simp only [Bool.false_eq_true, if_false, halign, Entry.setAddr]
        congr 1
        omega
      · intro cc hcc
        left
        simp only [transPath, hidx] at hcc
        simp only [List.mem_singleton] at hcc
        rw [hcc, idx1_eq]
  | User =>
    set cnt := min (e - p) (512 - p % 512) with hcntdef
    set mL := mapUserLoop t flags (p % 512) cnt m with hmL
    have heval : mapLeafLevel MemorySpace.User flags t emptyFrames ⟨p, e⟩ m =
        some (cnt, mL) := by
      simp only [mapLeafLevel, emptyFrames, if_pos, mapUser, idx1_eq, hmL, hcntdef]
    obtain ⟨h1, h2, h3, h4, h5, h6⟩ := mapUserLoop_spec t flags cnt (p % 512) m
    rw [← hmL] at h1 h2 h3 h4 h5 h6
    refine ⟨cnt, mL, heval, hcnt ▸ rfl, by omega, by omega, h3, fun u j _ hu => h4 u j hu,
      ?_, ?_⟩
    · intro j hj
      exact h5 j (Or.inl (by rwa [idx1_eq] at hj))
    · intro q off hpq hqk hoff
      have hq512 : q % 512 = p % 512 + (q - p) := by
        have : cnt ≤ 512 - p % 512 := by rw [hcntdef]; omega
        omega
      have hentry : mL.heap t (q % 512) = Entry.setFrame (m.next + (q - p)) flags := by
        rw [hq512]
        exact h6 (q - p) (by omega)
      have halign : (PAGE_SIZE * q + off) / PAGE_SIZE * PAGE_SIZE = PAGE_SIZE * q :=
        align_self q off hoff
      have hidx : pageTableIndex ((PAGE_SIZE * q + off) / PAGE_SIZE * PAGE_SIZE) 1 = q % 512 := by
        rw [halign, idx1_eq]
      refine ⟨(Entry.setFrame (m.next + (q - p)) flags).addr + off, ?_,
        fun h => absurd h (by simp), ?_⟩
      · show (if (mL.heap t (pageTableIndex ((PAGE_SIZE * q + off) / PAGE_SIZE * PAGE_SIZE) 1)).isUnused = true
          then none
          else some ((mL.heap t (pageTableIndex ((PAGE_SIZE * q + off) / PAGE_SIZE * PAGE_SIZE) 1)).addr +
            ((PAGE_SIZE * q + off) - (PAGE_SIZE * q + off) / PAGE_SIZE * PAGE_SIZE))) = _
        rw [hidx, hentry, isUnused_setFrame_false _ _ (by omega)]
        simp only [Bool.false_eq_true, if_false, halign]
        congr 2
        omega
      · intro cc hcc
        left
        simp only [transPath, hidx] at hcc
        simp only [List.mem_singleton] at hcc
        rw [hcc, idx1_eq]


/-! ### Division helpers for the walker arithmetic -/

theorem div_stable (S p q : Nat) (hS : 0 < S) (hpq : p ≤ q) (hq : q < p + (S - p % S)) :
    q / S = p / S := by
  have hD : p / S * S + p % S = p := Nat.div_add_mod' p S
  have hpm : p % S < S := Nat.mod_lt _ hS
  apply Nat.div_eq_of_lt_le
  · omega
  · rw [Nat.succ_mul]
    omega

theorem div_next (S p : Nat) (hS : 0 < S) : (p + (S - p % S)) / S = p / S + 1 := by
  have hD : p / S * S + p % S = p := Nat.div_add_mod' p S
  have hpm : p % S < S := Nat.mod_lt _ hS
  apply Nat.div_eq_of_lt_le
  · rw [Nat.succ_mul]
    omega
  · rw [Nat.succ_mul, Nat.succ_mul]
    omega

theorem mod_next (S p : Nat) (hS : 0 < S) : (p + (S - p % S)) % S = 0 := by
  have hD : p / S * S + p % S = p := Nat.div_add_mod' p S
  have hpm : p % S < S := Nat.mod_lt _ hS
  have h : p + (S - p % S) = (p / S + 1) * S := by
    rw [Nat.succ_mul]
    omega
  rw [h, Nat.mul_mod_left]

/-! ### The level-loop of the map walker on a fresh subtree -/

/-- One level of `map_in_table`'s entry loop on a fresh subtree, for
`AddressSpace::map` (empty dummy frame range): assuming the next level
down satisfies the map postcondition, the loop from index `i` with
`512 - i` iterations of fuel consumes
`min (e - p) (fuel * 512 ^ L - p % 512 ^ L)` pages, and satisfies the
accounting, framing and translation conditions. -/
theorem mapLoop_spec (space : MemorySpace) (flags : Nat) (L : Nat) (hL : 1 ≤ L)
    (rec1 : Nat → PhysFrameRange → PageRange → Mem → Option (Nat × Mem))
    (hrec : ∀ t p e m, 1 ≤ m.next → t < PAGE_SIZE * m.next →
      (∀ j, (m.heap t j).isUnused = true) →
      ∃ k m2, rec1 t emptyFrames ⟨p, e⟩ m = some (k, m2) ∧ MapSpec space L t p e m k m2) :
    ∀ (fuel i p acc t e : Nat) (m : Mem),
      fuel + i = 512 →
      (0 < fuel → p / 512 ^ L % 512 = i) →
      1 ≤ m.next → t < PAGE_SIZE * m.next →
      (∀ j, i ≤ j → (m.heap t j).isUnused = true) →
      ∃ k m2, mapLoop rec1 t flags fuel i emptyFrames ⟨p, e⟩ acc m = some (acc + k, m2) ∧
        k = min (e - p) (fuel * 512 ^ L - p % 512 ^ L) ∧
        m.next ≤ m2.next ∧
        m2.allocCount = m.allocCount + (m2.next - m.next) ∧
        m2.freeList = m.freeList ∧
        (∀ u j, u < PAGE_SIZE * m.next → u ≠ t → m2.heap u j = m.heap u j) ∧
        (∀ j, j < i → m2.heap t j = m.heap t j) ∧
        (∀ q off, p ≤ q → q < p + k → off < PAGE_SIZE →
          ∃ r, translateInTable (L + 1) m2 t (PAGE_SIZE * q + off) = some r ∧
            (space = MemorySpace.Kernel → r = PAGE_SIZE * q + off) ∧
            (∀ cc ∈ transPath (L + 1) m2 t (PAGE_SIZE * q + off),
              cc = (t, pageTableIndex (PAGE_SIZE * q) (L + 1)) ∨
                (PAGE_SIZE * m.next ≤ cc.1 ∧ cc.1 < PAGE_SIZE * m2.next))) := by
  intro fuel
  induction fuel with
  | zero =>
    intro i p acc t e m hfi hidx hnext ht hz
    refine ⟨0, m, by simp [mapLoop], by simp, le_refl _, by simp, rfl,
      fun _ _ _ _ => rfl, fun _ _ => rfl, fun q off hq1 hq2 _ => absurd hq2 (by omega)⟩
  | succ f ihf =>
    intro i p acc t e m hfi hidx hnext ht hz
    obtain ⟨LL, rfl⟩ : ∃ LL, L = LL + 1 := ⟨L - 1, by omega⟩
    set S := 512 ^ (LL + 1) with hS
    have hSpos : 0 < S := pow_pos (by norm_num) _
    have hpmS : p % S < S := Nat.mod_lt _ hSpos
    have hi511 : i ≤ 511 := by omega
    have hidx' : p / S % 512 = i := hidx (by omega)
    set c := PAGE_SIZE * m.next with hc
    have htc : t ≠ c := Nat.ne_of_lt ht
    set mA := zeroTable (writeEntry { m with next := m.next + 1, allocCount := m.allocCount + 1 }
      t i (Entry.setFrame m.next flags)) c with hmA
    have hAnext : mA.next = m.next + 1 := rfl
    have hAalloc : mA.allocCount = m.allocCount + 1 := rfl
    have hAfree : mA.freeList = m.freeList := rfl
    have hcA : c < PAGE_SIZE * mA.next := by
      rw [hAnext, Nat.mul_succ, ← hc]
      have := PAGE_SIZE_pos
      omega
    have htA : t < PAGE_SIZE * mA.next := by omega
    have hAheap_t : ∀ j, j ≠ i → mA.heap t j = m.heap t j := fun j hj => by
      rw [hmA, zeroTable_heap_ne _ _ _ _ htc, writeEntry_heap_ne_i _ _ _ _ _ _ hj]
    have hAheap_ti : mA.heap t i = Entry.setFrame m.next flags := by
      rw [hmA, zeroTable_heap_ne _ _ _ _ htc, writeEntry_heap_self]
    have hAheap_c : ∀ j, (mA.heap c j).isUnused = true := fun j => by
      rw [hmA, zeroTable_heap_self]
      rfl
    have hAheap_other : ∀ u j, u ≠ t → u ≠ c → mA.heap u j = m.heap u j := fun u j hu huc => by
      rw [hmA, zeroTable_heap_ne _ _ _ _ huc, writeEntry_heap_ne_t _ _ _ _ _ _ hu]
    obtain ⟨k1, m1, hrec1, hspec1⟩ := hrec c p e mA (by omega) hcA hAheap_c
    simp only [MapSpec] at hspec1
    obtain ⟨hk1, hnext1, halloc1, hfree1, hframe1, ht7x, htr1⟩ := hspec1
    rw [← hS] at hk1
    have hk1le : k1 ≤ S - p % S := by omega
    have hk1le2 : k1 ≤ e - p := by omega
    have hMulA : PAGE_SIZE * mA.next ≤ PAGE_SIZE * m1.next :=
      Nat.mul_le_mul_left PAGE_SIZE hnext1
    have hcm1 : c < PAGE_SIZE * m1.next := lt_of_lt_of_le hcA hMulA
    have htm1 : t < PAGE_SIZE * m1.next := lt_of_lt_of_le htA hMulA
    have hm1next_lb : m.next + 1 ≤ m1.next := by omega
    have hm1_t : ∀ j, m1.heap t j = mA.heap t j := fun j => hframe1 t j htA htc
    -- translations for the block consumed by the child, in state m1
    have hlift : ∀ q off, p ≤ q → q < p + k1 → off < PAGE_SIZE →
        ∃ r, translateInTable (LL + 1 + 1) m1 t (PAGE_SIZE * q + off) = some r ∧
          (space = MemorySpace.Kernel → r = PAGE_SIZE * q + off) ∧
          (∀ cc ∈ transPath (LL + 1 + 1) m1 t (PAGE_SIZE * q + off),
            cc = (t, pageTableIndex (PAGE_SIZE * q) (LL + 1 + 1)) ∨
              (c ≤ cc.1 ∧ cc.1 < PAGE_SIZE * m1.next)) := by
      intro q off hq1 hq2 hoff
      obtain ⟨r, hrq, hker, hpathq⟩ := htr1 q off hq1 (by omega) hoff
      have hdivq : q / S = p / S := div_stable S p q hSpos hq1 (by omega)
      have halign : (PAGE_SIZE * q + off) / PAGE_SIZE * PAGE_SIZE = PAGE_SIZE * q :=
        align_self q off hoff
      have hidxq : pageTableIndex ((PAGE_SIZE * q + off) / PAGE_SIZE * PAGE_SIZE) (LL + 1 + 1) =
          i := by
        rw [halign, pageTableIndex_page, ← hS, hdivq, hidx']
      have hidxq2 : pageTableIndex (PAGE_SIZE * q) (LL + 1 + 1) = i := by
        rw [pageTableIndex_page, ← hS, hdivq, hidx']
      have hentry : m1.heap t
          (pageTableIndex ((PAGE_SIZE * q + off) / PAGE_SIZE * PAGE_SIZE) (LL + 1 + 1)) =
          Entry.setFrame m.next flags := by
        rw [hidxq, hm1_t i, hAheap_ti]
      refine ⟨r, ?_, hker, ?_⟩
      · simp only [translateInTable, hentry, isUnused_setFrame_false _ _ hnext,
          Bool.false_eq_true, if_false]
        show translateInTable (LL + 1) m1 c (PAGE_SIZE * q + off) = some r
        exact hrq
      · intro cc hcc
        simp only [transPath, hentry, isUnused_setFrame_false _ _ hnext, Bool.false_eq_true,
          if_false] at hcc
        have hccaddr : (Entry.setFrame m.next flags).addr = c := rfl
        rw [hccaddr] at hcc
        rcases List.mem_cons.mp hcc with hhead | htail
        · left
          rw [hhead, hidxq, hidxq2]
        · rcases hpathq cc htail with hh | hb
          · right
            rw [hh]
            refine ⟨le_refl c, hcm1⟩
          · right
            constructor
            · omega
            · exact hb.2
    -- evaluate one iteration of the loop
    have heval : mapLoop rec1 t flags (f + 1) i emptyFrames ⟨p, e⟩ acc m =
        if e ≤ p + k1 then some (acc + k1, m1)
        else mapLoop rec1 t flags f (i + 1) emptyFrames ⟨p + k1, e⟩ (acc + k1) m1 := by
      simp only [mapLoop, hz i (le_refl i), if_true, alloc]
      rw [← hc, ← hmA, hrec1]
      simp [emptyFrames]
    by_cases hbreak : e ≤ p + k1
    · rw [heval, if_pos hbreak]
      refine ⟨k1, m1, rfl, ?_, by omega, by omega, by rw [hfree1, hAfree], ?_, ?_, ?_⟩
      · rw [Nat.succ_mul]
        omega
      · intro u j hu hut
        have huc : u ≠ c := Nat.ne_of_lt hu
        rw [hframe1 u j (by omega) huc, hAheap_other u j hut huc]
      · intro j hj
        rw [hm1_t j, hAheap_t j (by omega)]
      · intro q off hq1 hq2 hoff
        obtain ⟨r, hrq, hker, hpathq⟩ := hlift q off hq1 (by omega) hoff
        refine ⟨r, hrq, hker, ?_⟩
        intro cc hcc
        rcases hpathq cc hcc with hh | hb
        · exact Or.inl hh
        · right
          omega
    · rw [heval, if_neg hbreak]
      have hbreak' : p + k1 < e := by omega
      have hk1S : k1 = S - p % S := by omega
      have hmod0 : (p + k1) % S = 0 := by
        rw [hk1S]
        exact mod_next S p hSpos
      have hdiv1 : (p + k1) / S = p / S + 1 := by
        rw [hk1S]
        exact div_next S p hSpos
      have hidxB : 0 < f → (p + k1) / S % 512 = i + 1 := by
        intro hf
        rw [hdiv1]
        omega
      have hznew : ∀ j, i + 1 ≤ j → (m1.heap t j).isUnused = true := by
        intro j hj
        rw [hm1_t j, hAheap_t j (by omega)]
        exact hz j (by omega)
      obtain ⟨k2, m2, heq2, hk2, hnext2, halloc2, hfree2, hframe2, ht7y, htr2⟩ :=
        ihf (i + 1) (p + k1) (acc + k1) t e m1 (by omega) hidxB (by omega) htm1 hznew
      have hMulB : PAGE_SIZE * m1.next ≤ PAGE_SIZE * m2.next :=
        Nat.mul_le_mul_left PAGE_SIZE hnext2
      refine ⟨k1 + k2, m2, ?_, ?_, by omega, by omega, by rw [hfree2, hfree1, hAfree], ?_, ?_, ?_⟩
      · rw [heq2]
        congr 2
        omega
      · rw [Nat.succ_mul]
        rw [hmod0] at hk2
        omega
      · intro u j hu hut
        have huc : u ≠ c := Nat.ne_of_lt hu
        rw [hframe2 u j (by omega) hut, hframe1 u j (by omega) huc, hAheap_other u j hut huc]
      · intro j hj
        rw [ht7y j (by omega), hm1_t j, hAheap_t j (by omega)]
      · intro q off hq1 hq2 hoff
        by_cases hqfirst : q < p + k1
        · obtain ⟨r, hrq, hker, hpathq⟩ := hlift q off hq1 hqfirst hoff
          have hdivq : q / S = p / S := div_stable S p q hSpos hq1 (by omega)
          have hidxq2 : pageTableIndex (PAGE_SIZE * q) (LL + 1 + 1) = i := by
            rw [pageTableIndex_page, ← hS, hdivq, hidx']
          have hagree : ∀ cc ∈ transPath (LL + 1 + 1) m1 t (PAGE_SIZE * q + off),
              m2.heap cc.1 cc.2 = m1.heap cc.1 cc.2 := by
            intro cc hcc
            rcases hpathq cc hcc with hh | hb
            · rw [hh]
              show m2.heap t (pageTableIndex (PAGE_SIZE * q) (LL + 1 + 1)) =
                m1.heap t (pageTableIndex (PAGE_SIZE * q) (LL + 1 + 1))
              rw [hidxq2]
              exact ht7y i (by omega)
            · exact hframe2 cc.1 cc.2 (by omega) (by omega)
          obtain ⟨htr_eq, hpath_eq⟩ :=
            translate_frame (LL + 1 + 1) m1 m2 t (PAGE_SIZE * q + off) hagree
          refine ⟨r, by rw [htr_eq]; exact hrq, hker, ?_⟩
          intro cc hcc
          rw [hpath_eq] at hcc
          rcases hpathq cc hcc with hh | hb
          · exact Or.inl hh
          · right
            constructor
            · omega
            · omega
        · obtain ⟨r, hrq, hker, hpathq⟩ := htr2 q off (by omega) (by omega) hoff
          refine ⟨r, hrq, hker, ?_⟩
          intro cc hcc
          rcases hpathq cc hcc with hh | hb
          · exact Or.inl hh
          · right
            constructor
            · omega
            · omega


theorem span_step (l p : Nat) :
    (512 - p / 512 ^ l % 512) * 512 ^ l - p % 512 ^ l = 512 ^ (l + 1) - p % 512 ^ (l + 1) := by
  have hpm : p % 512 ^ l < 512 ^ l := Nat.mod_lt _ (pow_pos (by norm_num) _)
  have hi : p / 512 ^ l % 512 < 512 := Nat.mod_lt _ (by norm_num)
  rw [Nat.sub_mul, pow_succ, Nat.mod_mul]
  have h1 : p / 512 ^ l % 512 * 512 ^ l = 512 ^ l * (p / 512 ^ l % 512) := Nat.mul_comm _ _
  have h2 : 512 * 512 ^ l = 512 ^ l * 512 := Nat.mul_comm _ _
  omega

/-- Lemma: `map_in_table` on a fresh subtree (all entries of `t` unused), with
the empty dummy frame range of `AddressSpace::map`, satisfies the map
postcondition at every level `l ≥ 1`. -/
theorem mapInTable_fresh (space : MemorySpace) (flags : Nat)
    (hok : space = MemorySpace.User ∨ flags ≠ 0) :
    ∀ l, 1 ≤ l →
    ∀ (t p e : Nat) (m : Mem),
      1 ≤ m.next → t < PAGE_SIZE * m.next →
      (∀ j, (m.heap t j).isUnused = true) →
      ∃ k m2, mapInTable space flags l t emptyFrames ⟨p, e⟩ m = some (k, m2) ∧
        MapSpec space l t p e m k m2 := by
  intro l
  induction l using Nat.strong_induction_on with
  | _ l ih =>
  match l, ih with
  | 0, _ => exact fun h => absurd h (by omega)
  | 1, _ =>
    intro _ t p e m hnext ht hz
    obtain ⟨k, m2, heq, hspec⟩ := mapLeafLevel_spec space flags hok t p e m hnext
    refine ⟨k, m2, ?_, hspec⟩
    show mapLeafLevel space flags t emptyFrames ⟨p, e⟩ m = some (k, m2)
    exact heq
  | l + 2, ih =>
    intro _ t p e m hnext ht hz
    have hidx0 : pageTableIndex (PAGE_SIZE * p) (l + 2) = p / 512 ^ (l + 1) % 512 :=
      pageTableIndex_page p (l + 1)
    have hi0lt : pageTableIndex (PAGE_SIZE * p) (l + 2) < 512 := pageTableIndex_lt _ _
    obtain ⟨k, m2, heq, hkf, hnext2, halloc2, hfree2, hframe2, ht7, htr⟩ :=
      mapLoop_spec space flags (l + 1) (by omega)
        (fun c fr pg mm => mapInTable space flags (l + 1) c fr pg mm)
        (fun t' p' e' m' hn' ht' hz' => ih (l + 1) (by omega) (by omega) t' p' e' m' hn' ht' hz')
        (512 - pageTableIndex (PAGE_SIZE * p) (l + 2)) (pageTableIndex (PAGE_SIZE * p) (l + 2))
        p 0 t e m (by omega) (fun _ => hidx0.symm) hnext ht (fun j _ => hz j)
    have hunf : mapInTable space flags (l + 2) t emptyFrames ⟨p, e⟩ m =
        mapLoop (fun c fr pg mm => mapInTable space flags (l + 1) c fr pg mm) t flags
          (512 - pageTableIndex (PAGE_SIZE * p) (l + 2)) (pageTableIndex (PAGE_SIZE * p) (l + 2))
          emptyFrames ⟨p, e⟩ 0 m := rfl
    refine ⟨k, m2, ?_, ?_, hnext2, halloc2, hfree2, hframe2, ht7, htr⟩
    · rw [hunf, heq]
      simp
    · rw [hkf, hidx0, span_step]

/-- C6 (amended): on a freshly created AddressSpace of depth `d ≥ 1`,
after `map(pages, Kernel, f)` with `f ≠ 0` and the range within the
`d`-level tree's span, every page P of the range satisfies
`translate(P.base + k) = P.base + k` for `0 ≤ k < 4096`.  (`f ≠ 0` is
forced: a zero flag mask together with physical address 0 produces the
all-zero entry, which reads back as unused.) -/
theorem C6_identity_map (d p len flags q off : Nat) (m0 : Mem)
    (hd : 1 ≤ d) (hnext : 1 ≤ m0.next) (hflags : flags ≠ 0)
    (hcap : p + len ≤ 512 ^ d) (hq : p ≤ q) (hq2 : q < p + len) (hoff : off < PAGE_SIZE) :
    ∃ m2,
      AddressSpace.map (AddressSpace.new d m0).1 (AddressSpace.new d m0).2 ⟨p, p + len⟩
        MemorySpace.Kernel flags = some m2 ∧
      AddressSpace.translate (AddressSpace.new d m0).1 m2 (PAGE_SIZE * q + off) =
        some (PAGE_SIZE * q + off) := by
  have hroot : (AddressSpace.new d m0).1.rootTable = PAGE_SIZE * m0.next := rfl
  have hdepth : (AddressSpace.new d m0).1.depth = d := rfl
  have hN : (AddressSpace.new d m0).2.next = m0.next + 1 := rfl
  obtain ⟨k, m2, heq, hkf, _, _, _, _, _, htr⟩ :=
    mapInTable_fresh MemorySpace.Kernel flags (Or.inr hflags) d hd (PAGE_SIZE * m0.next) p
      (p + len) (AddressSpace.new d m0).2 (by omega)
      (by rw [hN, Nat.mul_succ]; have := PAGE_SIZE_pos; omega)
      (fun j => by
        show ((zeroTable _ (PAGE_SIZE * m0.next)).heap (PAGE_SIZE * m0.next) j).isUnused = true
        rw [zeroTable_heap_self]
        rfl)
  have hplt : p < 512 ^ d := by omega
  have hkval : k = len := by
    rw [Nat.mod_eq_of_lt hplt] at hkf
    omega
  obtain ⟨r, hr, hker, _⟩ := htr q off hq (by omega) hoff
  refine ⟨m2, ?_, ?_⟩
  · show (match mapInTable MemorySpace.Kernel flags (AddressSpace.new d m0).1.depth
      (AddressSpace.new d m0).1.rootTable emptyFrames ⟨p, p + len⟩ (AddressSpace.new d m0).2 with
      | some km => some km.2 | none => none) = some m2
    rw [hdepth, hroot, heq]
  · show translateInTable (AddressSpace.new d m0).1.depth m2
      (AddressSpace.new d m0).1.rootTable (PAGE_SIZE * q + off) = some (PAGE_SIZE * q + off)
    rw [hdepth, hroot, hr, hker rfl]

/-- Witness: C6 (amended) applied on a fresh depth-2 space, mapping
pages [5, 1030) with flags 3 and translating page 700 at offset 17. -/
theorem C6_identity_map_witness :
    1 ≤ 2 ∧ 1 ≤ mem0.next ∧ (3 : Nat) ≠ 0 ∧ 5 + 1025 ≤ 512 ^ 2 ∧ 5 ≤ 700 ∧ 700 < 5 + 1025 ∧
      17 < PAGE_SIZE ∧
      ∃ m2,
        AddressSpace.map (AddressSpace.new 2 mem0).1 (AddressSpace.new 2 mem0).2 ⟨5, 5 + 1025⟩
          MemorySpace.Kernel 3 = some m2 ∧
        AddressSpace.translate (AddressSpace.new 2 mem0).1 m2 (PAGE_SIZE * 700 + 17) =
          some (PAGE_SIZE * 700 + 17) :=
  ⟨by norm_num, by norm_num [mem0], by norm_num, by norm_num, by norm_num, by norm_num,
    by norm_num [PAGE_SIZE],
    C6_identity_map 2 5 1025 3 700 17 mem0 (by norm_num) (by norm_num [mem0]) (by norm_num)
      (by norm_num) (by norm_num) (by norm_num) (by norm_num [PAGE_SIZE])⟩

/-- C7 (amended): on a freshly created AddressSpace, a `map` call whose
in-span page range straddles a level-1 table boundary (the walker
descends into the next level-2 entry, allocating the missing level-1
table) leaves every page of the range translating successfully —
provided the flag mask is nonzero when the space is Kernel (a zero mask
writes the unused bit pattern for page 0). -/
theorem C7_straddle_maps_all (d p len flags : Nat) (space : MemorySpace) (m0 : Mem)
    (hd : 1 ≤ d) (hnext : 1 ≤ m0.next)
    (hok : space = MemorySpace.User ∨ flags ≠ 0)
    (hcap : p + len ≤ 512 ^ d) (hstraddle : 512 < p % 512 + len) :
    ∃ m2,
      AddressSpace.map (AddressSpace.new d m0).1 (AddressSpace.new d m0).2 ⟨p, p + len⟩
        space flags = some m2 ∧
      ∀ q, p ≤ q → q < p + len →
        ∃ r, AddressSpace.translate (AddressSpace.new d m0).1 m2 (PAGE_SIZE * q) = some r := by
  have hroot : (AddressSpace.new d m0).1.rootTable = PAGE_SIZE * m0.next := rfl
  have hdepth : (AddressSpace.new d m0).1.depth = d := rfl
  have hN : (AddressSpace.new d m0).2.next = m0.next + 1 := rfl
  obtain ⟨k, m2, heq, hkf, _, _, _, _, _, htr⟩ :=
    mapInTable_fresh space flags hok d hd (PAGE_SIZE * m0.next) p (p + len)
      (AddressSpace.new d m0).2 (by omega)
      (by rw [hN, Nat.mul_succ]; have := PAGE_SIZE_pos; omega)
      (fun j => by
        show ((zeroTable _ (PAGE_SIZE * m0.next)).heap (PAGE_SIZE * m0.next) j).isUnused = true
        rw [zeroTable_heap_self]
        rfl)
  have hplt : p < 512 ^ d := by omega
  have hkval : k = len := by
    rw [Nat.mod_eq_of_lt hplt] at hkf
    omega
  refine ⟨m2, ?_, ?_⟩
  · show (match mapInTable space flags (AddressSpace.new d m0).1.depth
      (AddressSpace.new d m0).1.rootTable emptyFrames ⟨p, p + len⟩ (AddressSpace.new d m0).2 with
      | some km => some km.2 | none => none) = some m2
    rw [hdepth, hroot, heq]
  · intro q hq1 hq2
    obtain ⟨r, hr, _, _⟩ := htr q 0 hq1 (by omega) PAGE_SIZE_pos
    refine ⟨r, ?_⟩
    show translateInTable (AddressSpace.new d m0).1.depth m2
      (AddressSpace.new d m0).1.rootTable (PAGE_SIZE * q) = some r
    rw [hdepth, hroot]
    rw [show PAGE_SIZE * q = PAGE_SIZE * q + 0 by omega]
    exact hr

/-- Witness: C7 (amended) at the spec's own example — depth 2, five
user pages starting at level-1 index 510, straddling into the next
level-1 table. -/
theorem C7_straddle_maps_all_witness :
    1 ≤ 2 ∧ 1 ≤ mem0.next ∧
      (MemorySpace.User = MemorySpace.User ∨ (3 : Nat) ≠ 0) ∧
      510 + 5 ≤ 512 ^ 2 ∧ 512 < 510 % 512 + 5 ∧
      ∃ m2,
        AddressSpace.map (AddressSpace.new 2 mem0).1 (AddressSpace.new 2 mem0).2 ⟨510, 510 + 5⟩
          MemorySpace.User 3 = some m2 ∧
        ∀ q, 510 ≤ q → q < 510 + 5 →
          ∃ r, AddressSpace.translate (AddressSpace.new 2 mem0).1 m2 (PAGE_SIZE * q) = some r :=
  ⟨by norm_num, by norm_num [mem0], Or.inl rfl, by norm_num, by norm_num,
    C7_straddle_maps_all 2 510 5 3 MemorySpace.User mem0 (by norm_num) (by norm_num [mem0])
      (Or.inl rfl) (by norm_num) (by norm_num)⟩


/-! ### The unmap walker undoes a fresh map (C5) -/

theorem isTableEmpty_of_all (m : Mem) (t : Nat)
    (h : ∀ j, (m.heap t j).isUnused = true) : isTableEmpty m t = true := by
  simp only [isTableEmpty, List.all_eq_true]
  exact fun i _ => h i

/-- What the level-1 unmap loop does when every visited entry is used:
free one frame per entry and clear it. -/
theorem unmapLeafLoop_spec (t : Nat) :
    ∀ (n i : Nat) (m : Mem),
      (∀ kk, kk < n → (m.heap t (i + kk)).isUnused = false) →
      (unmapLeafLoop t i n m).next = m.next ∧
      (unmapLeafLoop t i n m).allocCount = m.allocCount ∧
      (unmapLeafLoop t i n m).freeList.length = m.freeList.length + n ∧
      (∀ u j, u ≠ t → (unmapLeafLoop t i n m).heap u j = m.heap u j) ∧
      (∀ j, j < i ∨ i + n ≤ j → (unmapLeafLoop t i n m).heap t j = m.heap t j) ∧
      (∀ kk, kk < n → (unmapLeafLoop t i n m).heap t (i + kk) = Entry.unusedE) := by
  intro n
  induction n with
  | zero =>
    intro i m _
    exact ⟨rfl, rfl, rfl, fun _ _ _ => rfl, fun _ _ => rfl, fun kk hkk => absurd hkk (by omega)⟩
  | succ n ihn =>
    intro i m hused
    have hu0 : (m.heap t (i + 0)).isUnused = false := hused 0 (by omega)
    rw [Nat.add_zero] at hu0
    set mB := writeEntry (free m ((m.heap t i).addr / PAGE_SIZE)) t i Entry.unusedE with hmB
    have hshow : unmapLeafLoop t i (n + 1) m = unmapLeafLoop t (i + 1) n mB := by
      simp only [unmapLeafLoop, hu0, Bool.false_eq_true, if_false, hmB]
    have hBheap_t : ∀ j, j ≠ i → mB.heap t j = m.heap t j := fun j hj => by
      rw [hmB, writeEntry_heap_ne_i _ _ _ _ _ _ hj]
      rfl
    obtain ⟨h1, h2, h3, h4, h5, h6⟩ := ihn (i + 1) mB (fun kk hkk => by
      rw [hBheap_t (i + 1 + kk) (by omega), show i + 1 + kk = i + (kk + 1) by omega]
      exact hused (kk + 1) (by omega))
    have hBlen : mB.freeList.length = m.freeList.length + 1 := by
      rw [hmB]
      simp
    refine ⟨by rw [hshow, h1]; rfl, by rw [hshow, h2]; rfl, by rw [hshow, h3, hBlen]; omega,
      ?_, ?_, ?_⟩
    · intro u j hu
      rw [hshow, h4 u j hu, hmB, writeEntry_heap_ne_t _ _ _ _ _ _ hu]
      rfl
    · intro j hj
      rw [hshow, h5 j (by omega), hBheap_t j (by omega)]
    · intro kk hkk
      match kk, hkk with
      | 0, _ =>
        rw [hshow, h5 (i + 0) (by omega), Nat.add_zero, hmB, writeEntry_heap_self]
      | kk + 1, hkk =>
        rw [hshow, show i + (kk + 1) = (i + 1) + kk by omega]
        exact h6 kk (by omega)

/-- The leaf level of the joint map/unmap property. -/
theorem jointLeaf (flags : Nat) (t p e : Nat) (m : Mem) (hnext : 1 ≤ m.next)
    (hz : ∀ j, (m.heap t j).isUnused = true) :
    ∃ k m1, mapInTable MemorySpace.User flags 1 t emptyFrames ⟨p, e⟩ m = some (k, m1) ∧
      JointSpec 1 t p e m k m1 := by
  set cnt := min (e - p) (512 - p % 512) with hcntdef
  set mL := mapUserLoop t flags (p % 512) cnt m with hmL
  have heval : mapInTable MemorySpace.User flags 1 t emptyFrames ⟨p, e⟩ m =
      some (cnt, mL) := by
    show mapLeafLevel MemorySpace.User flags t emptyFrames ⟨p, e⟩ m = some (cnt, mL)
    simp only [mapLeafLevel, emptyFrames, if_pos, mapUser, idx1_eq, hmL, hcntdef]
  obtain ⟨h1, h2, h3, h4, h5, h6⟩ := mapUserLoop_spec t flags cnt (p % 512) m
  rw [← hmL] at h1 h2 h3 h4 h5 h6
  have hcnt1 : cnt = min (e - p) (512 ^ 1 - p % 512 ^ 1) := by
    rw [hcntdef]
    norm_num
  refine ⟨cnt, mL, heval, hcnt1, by omega, by omega, h3, fun u j _ hu => h4 u j hu, ?_, ?_⟩
  · intro j hj
    exact h5 j (Or.inl (by rwa [idx1_eq] at hj))
  · -- the unmap clause
    intro m1' hagt hagb
    have hLnext : mL.next = m.next + cnt := h1
    set i0 := p % 512 with hi0
    have hueval : unmapInTable 1 t ⟨p, e⟩ m1' =
        (cnt, unmapLeafLoop t i0 cnt m1') := by
      show (min (e - p) (512 - pageTableIndex (PAGE_SIZE * p) 1),
        unmapLeafLoop t (pageTableIndex (PAGE_SIZE * p) 1)
          (min (e - p) (512 - pageTableIndex (PAGE_SIZE * p) 1)) m1') = _
      rw [idx1_eq, ← hi0, ← hcntdef]
    obtain ⟨g1, g2, g3, g4, g5, g6⟩ := unmapLeafLoop_spec t cnt i0 m1' (fun kk hkk => by
      rw [hagt (i0 + kk), h6 kk (by omega)]
      exact isUnused_setFrame_false _ _ (by omega))
    refine ⟨unmapLeafLoop t i0 cnt m1', hueval, g1, g2, by rw [g3]; omega, ?_, ?_⟩
    · intro j
      by_cases hjin : i0 ≤ j ∧ j < i0 + cnt
      · have : j = i0 + (j - i0) := by omega
        rw [this, g6 (j - i0) (by omega)]
        rfl
      · rw [g5 j (by omega), hagt j, h5 j (by omega)]
        exact hz j
    · intro u j hu _
      exact g4 u j hu


/-- One level of the joint map/unmap loop property: the map loop on a
fresh subtree, followed (in any agreeing extension state) by the unmap
loop over the same range, which removes the same page count, frees
exactly the frames the map allocated, and clears the table from the
start index on. -/
theorem jointLoop (flags : Nat) (L : Nat) (_hL : 1 ≤ L)
    (hrecJ : ∀ t p e m, 1 ≤ m.next → t < PAGE_SIZE * m.next →
      (∀ j, (m.heap t j).isUnused = true) →
      ∃ k m1, mapInTable MemorySpace.User flags L t emptyFrames ⟨p, e⟩ m = some (k, m1) ∧
        JointSpec L t p e m k m1) :
    ∀ (fuel i p acc t e : Nat) (m : Mem),
      fuel + i = 512 →
      (0 < fuel → p / 512 ^ L % 512 = i) →
      1 ≤ m.next → t < PAGE_SIZE * m.next →
      (∀ j, i ≤ j → (m.heap t j).isUnused = true) →
      ∃ k m1, mapLoop (fun c fr pg mm => mapInTable MemorySpace.User flags L c fr pg mm)
          t flags fuel i emptyFrames ⟨p, e⟩ acc m = some (acc + k, m1) ∧
        k = min (e - p) (fuel * 512 ^ L - p % 512 ^ L) ∧
        m.next ≤ m1.next ∧
        m1.allocCount = m.allocCount + (m1.next - m.next) ∧
        m1.freeList = m.freeList ∧
        (∀ u j, u < PAGE_SIZE * m.next → u ≠ t → m1.heap u j = m.heap u j) ∧
        (∀ j, j < i → m1.heap t j = m.heap t j) ∧
        (∀ (accU : Nat) (m1' : Mem),
          (∀ j, i ≤ j → m1'.heap t j = m1.heap t j) →
          (∀ u j, PAGE_SIZE * m.next ≤ u → u < PAGE_SIZE * m1.next →
            m1'.heap u j = m1.heap u j) →
          ∃ m2, unmapLoop (fun c pg mm => unmapInTable L c pg mm) t fuel i ⟨p, e⟩ accU m1' =
              (accU + k, m2) ∧
            m2.next = m1'.next ∧
            m2.allocCount = m1'.allocCount ∧
            m2.freeList.length = m1'.freeList.length + (m1.next - m.next) ∧
            (∀ j, i ≤ j → (m2.heap t j).isUnused = true) ∧
            (∀ j, j < i → m2.heap t j = m1'.heap t j) ∧
            (∀ u j, u ≠ t → (u < PAGE_SIZE * m.next ∨ PAGE_SIZE * m1.next ≤ u) →
              m2.heap u j = m1'.heap u j)) := by
  intro fuel
  induction fuel with
  | zero =>
    intro i p acc t e m hfi hidx hnext ht hz
    refine ⟨0, m, by simp [mapLoop], by simp, le_refl _, by simp, rfl,
      fun _ _ _ _ => rfl, fun _ _ => rfl, ?_⟩
    intro accU m1' hagt hagb
    refine ⟨m1', by simp [unmapLoop], rfl, rfl, by simp, ?_, fun _ _ => rfl, fun _ _ _ _ => rfl⟩
    intro j hj
    rw [hagt j hj]
    exact hz j hj
  | succ f ihf =>
    intro i p acc t e m hfi hidx hnext ht hz
    set S := 512 ^ L with hS
    have hSpos : 0 < S := pow_pos (by norm_num) _
    have hpmS : p % S < S := Nat.mod_lt _ hSpos
    have hi511 : i ≤ 511 := by omega
    have hidx' : p / S % 512 = i := hidx (by omega)
    set c := PAGE_SIZE * m.next with hc
    have htc : t ≠ c := Nat.ne_of_lt ht
    set mA := zeroTable (writeEntry { m with next := m.next + 1, allocCount := m.allocCount + 1 }
      t i (Entry.setFrame m.next flags)) c with hmA
    have hAnext : mA.next = m.next + 1 := rfl
    have hAalloc : mA.allocCount = m.allocCount + 1 := rfl
    have hAfree : mA.freeList = m.freeList := rfl
    have hcA : c < PAGE_SIZE * mA.next := by
      rw [hAnext, Nat.mul_succ, ← hc]
      have := PAGE_SIZE_pos
      omega
    have htA : t < PAGE_SIZE * mA.next := by omega
    have hAheap_t : ∀ j, j ≠ i → mA.heap t j = m.heap t j := fun j hj => by
      rw [hmA, zeroTable_heap_ne _ _ _ _ htc, writeEntry_heap_ne_i _ _ _ _ _ _ hj]
    have hAheap_ti : mA.heap t i = Entry.setFrame m.next flags := by
      rw [hmA, zeroTable_heap_ne _ _ _ _ htc, writeEntry_heap_self]
    have hAheap_c : ∀ j, (mA.heap c j).isUnused = true := fun j => by
      rw [hmA, zeroTable_heap_self]
      rfl
    have hAheap_other : ∀ u j, u ≠ t → u ≠ c → mA.heap u j = m.heap u j := fun u j hu huc => by
      rw [hmA, zeroTable_heap_ne _ _ _ _ huc, writeEntry_heap_ne_t _ _ _ _ _ _ hu]
    obtain ⟨k1, m1c, hrec1, hspec1⟩ := hrecJ c p e mA (by omega) hcA hAheap_c
    simp only [JointSpec] at hspec1
    obtain ⟨hk1, hnext1, halloc1, hfree1, hframe1, ht7c, hclause1⟩ := hspec1
    rw [← hS] at hk1
    have hk1le : k1 ≤ S - p % S := by omega
    have hk1le2 : k1 ≤ e - p := by omega
    have hMulA : PAGE_SIZE * mA.next ≤ PAGE_SIZE * m1c.next :=
      Nat.mul_le_mul_left PAGE_SIZE hnext1
    have hcm1 : c < PAGE_SIZE * m1c.next := lt_of_lt_of_le hcA hMulA
    have htm1 : t < PAGE_SIZE * m1c.next := lt_of_lt_of_le htA hMulA
    have hm1c_t : ∀ j, m1c.heap t j = mA.heap t j := fun j => hframe1 t j htA htc
    have heval : mapLoop (fun c fr pg mm => mapInTable MemorySpace.User flags L c fr pg mm)
        t flags (f + 1) i emptyFrames ⟨p, e⟩ acc m =
        if e ≤ p + k1 then some (acc + k1, m1c)
        else mapLoop (fun c fr pg mm => mapInTable MemorySpace.User flags L c fr pg mm)
          t flags f (i + 1) emptyFrames ⟨p + k1, e⟩ (acc + k1) m1c := by
      simp only [mapLoop, hz i (le_refl i), if_true, alloc]
      rw [← hc, ← hmA, hrec1]
      simp [emptyFrames]
    by_cases hbreak : e ≤ p + k1
    · rw [heval, if_pos hbreak]
      refine ⟨k1, m1c, rfl, ?_, by omega, by omega, by rw [hfree1, hAfree], ?_, ?_, ?_⟩
      · rw [Nat.succ_mul]
        omega
      · intro u j hu hut
        have huc : u ≠ c := Nat.ne_of_lt hu
        rw [hframe1 u j (by omega) huc, hAheap_other u j hut huc]
      · intro j hj
        rw [hm1c_t j, hAheap_t j (by omega)]
      · -- unmap clause, break case
        intro accU m1' hagt hagb
        have hband_lb : PAGE_SIZE * m.next ≤ c := le_of_eq hc.symm
        have hagt_c : ∀ j, m1'.heap c j = m1c.heap c j := fun j => by
          rw [hagb c j hband_lb hcm1]
        have hagb_c : ∀ u j, PAGE_SIZE * mA.next ≤ u → u < PAGE_SIZE * m1c.next →
            m1'.heap u j = m1c.heap u j := fun u j hu1 hu2 => by
          rw [hagb u j (by omega) hu2]
        obtain ⟨m2c, hueq, hunext, hualloc, hulen, huallz, huframe⟩ :=
          hclause1 m1' hagt_c hagb_c
        have hempty : isTableEmpty m2c c = true := isTableEmpty_of_all m2c c huallz
        have hu1 : m1'.heap t i = Entry.setFrame m.next flags := by
          rw [hagt i (le_refl i), hm1c_t i, hAheap_ti]
        set mW := writeEntry (free m2c ((m2c.heap t i).addr / PAGE_SIZE)) t i Entry.unusedE
          with hmW
        have hueval : unmapLoop (fun c pg mm => unmapInTable L c pg mm) t (f + 1) i ⟨p, e⟩
            accU m1' = (accU + k1, mW) := by
          simp only [unmapLoop, hu1, isUnused_setFrame_false _ _ hnext, Bool.false_eq_true,
            if_false]
          rw [show (Entry.setFrame m.next flags).addr = c from rfl, hueq]
          simp only [hempty, if_true, hmW]
          rw [if_pos hbreak]
        have hWt : ∀ j, j ≠ i → mW.heap t j = m2c.heap t j := fun j hj => by
          rw [hmW, writeEntry_heap_ne_i _ _ _ _ _ _ hj]
          rfl
        have hWti : mW.heap t i = Entry.unusedE := by
          rw [hmW, writeEntry_heap_self]
        have hWother : ∀ u j, u ≠ t → mW.heap u j = m2c.heap u j := fun u j hu => by
          rw [hmW, writeEntry_heap_ne_t _ _ _ _ _ _ hu]
          rfl
        have hWlen : mW.freeList.length = m2c.freeList.length + 1 := by
          rw [hmW]
          simp
        refine ⟨mW, hueval, by rw [hmW]; simpa using hunext,
          by rw [hmW]; simpa using hualloc, ?_, ?_, ?_, ?_⟩
        · rw [hWlen, hulen, hAnext]
          omega
        · intro j hj
          by_cases hji : j = i
          · rw [hji, hWti]
            rfl
          · rw [hWt j hji, huframe t j htc (Or.inl htA), hagt j hj, hm1c_t j, hAheap_t j hji]
            exact hz j hj
        · intro j hj
          rw [hWt j (by omega), huframe t j htc (Or.inl htA)]
        · intro u j hu hrange
          have huc : u ≠ c := by
            rcases hrange with h | h
            · omega
            · omega
          refine Eq.trans (hWother u j hu) (huframe u j huc ?_)
          rcases hrange with h | h
          · left
            omega
          · right
            omega
    · -- continue into the next entry
      rw [heval, if_neg hbreak]
      have hbreak' : p + k1 < e := by omega
      have hk1S : k1 = S - p % S := by omega
      have hmod0 : (p + k1) % S = 0 := by
        rw [hk1S]
        exact mod_next S p hSpos
      have hdiv1 : (p + k1) / S = p / S + 1 := by
        rw [hk1S]
        exact div_next S p hSpos
      have hidxB : 0 < f → (p + k1) / S % 512 = i + 1 := by
        intro hf
        rw [hdiv1]
        omega
      have hznew : ∀ j, i + 1 ≤ j → (m1c.heap t j).isUnused = true := by
        intro j hj
        rw [hm1c_t j, hAheap_t j (by omega)]
        exact hz j (by omega)
      obtain ⟨k2, m1, heq2, hk2, hnext2, halloc2, hfree2, hframe2, ht7y, hclause2⟩ :=
        ihf (i + 1) (p + k1) (acc + k1) t e m1c (by omega) hidxB (by omega) htm1 hznew
      have hMulB : PAGE_SIZE * m1c.next ≤ PAGE_SIZE * m1.next :=
        Nat.mul_le_mul_left PAGE_SIZE hnext2
      have hm1_t_i : m1.heap t i = Entry.setFrame m.next flags := by
        rw [ht7y i (by omega), hm1c_t i, hAheap_ti]
      refine ⟨k1 + k2, m1, ?_, ?_, by omega, by omega, by rw [hfree2, hfree1, hAfree], ?_, ?_, ?_⟩
      · rw [heq2]
        congr 2
        omega
      · rw [Nat.succ_mul]
        rw [hmod0] at hk2
        omega
      · intro u j hu hut
        have huc : u ≠ c := Nat.ne_of_lt hu
        rw [hframe2 u j (by omega) hut, hframe1 u j (by omega) huc, hAheap_other u j hut huc]
      · intro j hj
        rw [ht7y j (by omega), hm1c_t j, hAheap_t j (by omega)]
      · -- unmap clause, continue case
        intro accU m1' hagt hagb
        have hband_lb : PAGE_SIZE * m.next ≤ c := le_of_eq hc.symm
        have hagt_c : ∀ j, m1'.heap c j = m1c.heap c j := fun j => by
          rw [hagb c j hband_lb (by omega), hframe2 c j hcm1 (Ne.symm htc)]
        have hagb_c : ∀ u j, PAGE_SIZE * mA.next ≤ u → u < PAGE_SIZE * m1c.next →
            m1'.heap u j = m1c.heap u j := fun u j hu1 hu2 => by
          rw [hagb u j (by omega) (by omega), hframe2 u j hu2 (by omega)]
        obtain ⟨m2c, hueq, hunext, hualloc, hulen, huallz, huframe⟩ :=
          hclause1 m1' hagt_c hagb_c
        have hempty : isTableEmpty m2c c = true := isTableEmpty_of_all m2c c huallz
        have hu1 : m1'.heap t i = Entry.setFrame m.next flags := by
          rw [hagt i (le_refl i), hm1_t_i]
        set mW := writeEntry (free m2c ((m2c.heap t i).addr / PAGE_SIZE)) t i Entry.unusedE
          with hmW
        have hueval : unmapLoop (fun c pg mm => unmapInTable L c pg mm) t (f + 1) i ⟨p, e⟩
            accU m1' =
            unmapLoop (fun c pg mm => unmapInTable L c pg mm) t f (i + 1) ⟨p + k1, e⟩
              (accU + k1) mW := by
          simp only [unmapLoop, hu1, isUnused_setFrame_false _ _ hnext, Bool.false_eq_true,
            if_false]
          rw [show (Entry.setFrame m.next flags).addr = c from rfl, hueq]
          simp only [hempty, if_true, hmW]
          rw [if_neg hbreak]
        have hWt : ∀ j, j ≠ i → mW.heap t j = m2c.heap t j := fun j hj => by
          rw [hmW, writeEntry_heap_ne_i _ _ _ _ _ _ hj]
          rfl
        have hWti : mW.heap t i = Entry.unusedE := by
          rw [hmW, writeEntry_heap_self]
        have hWother : ∀ u j, u ≠ t → mW.heap u j = m2c.heap u j := fun u j hu => by
          rw [hmW, writeEntry_heap_ne_t _ _ _ _ _ _ hu]
          rfl
        have hWnext : mW.next = m1'.next := by
          rw [hmW]
          simpa using hunext
        have hWalloc : mW.allocCount = m1'.allocCount := by
          rw [hmW]
          simpa using hualloc
        have hWlen : mW.freeList.length = m1'.freeList.length + (m1c.next - m.next) := by
          have : mW.freeList.length = m2c.freeList.length + 1 := by
            rw [hmW]
            simp
          rw [this, hulen, hAnext]
          omega
        -- instantiate the recursive unmap clause at mW
        have hagt2 : ∀ j, i + 1 ≤ j → mW.heap t j = m1.heap t j := by
          intro j hj
          rw [hWt j (by omega), huframe t j htc (Or.inl htA), hagt j (by omega)]
        have hagb2 : ∀ u j, PAGE_SIZE * m1c.next ≤ u → u < PAGE_SIZE * m1.next →
            mW.heap u j = m1.heap u j := by
          intro u j hu1 hu2
          have hut : u ≠ t := by omega
          have huc : u ≠ c := by omega
          rw [hWother u j hut, huframe u j huc (Or.inr hu1), hagb u j (by omega) hu2]
        obtain ⟨m2, hueq2, h2next, h2alloc, h2len, h2allz, h2lt, h2frame⟩ :=
          hclause2 (accU + k1) mW hagt2 hagb2
        refine ⟨m2, ?_, h2next.trans hWnext, h2alloc.trans hWalloc, ?_, ?_, ?_, ?_⟩
        · rw [hueval, show accU + (k1 + k2) = accU + k1 + k2 from by omega]
          exact hueq2
        · rw [h2len, hWlen]
          omega
        · intro j hj
          by_cases hji : j = i
          · rw [hji]
            have : m2.heap t i = mW.heap t i := h2lt i (by omega)
            rw [this, hWti]
            rfl
          · exact h2allz j (by omega)
        · intro j hj
          rw [h2lt j (by omega), hWt j (by omega), huframe t j htc (Or.inl htA)]
        · intro u j hu hrange
          have huc : u ≠ c := by
            rcases hrange with h | h
            · omega
            · omega
          have hr2 : u < PAGE_SIZE * m1c.next ∨ PAGE_SIZE * m1.next ≤ u := by
            rcases hrange with h | h
            · left
              omega
            · right
              omega
          rw [h2frame u j hu hr2, hWother u j hu]
          refine huframe u j huc ?_
          rcases hrange with h | h
          · left
            omega
          · right
            omega


/-- Lemma: `map_in_table` (User) on a fresh subtree satisfies the joint
map/unmap postcondition at every level `l ≥ 1`. -/
theorem mapUnmap_fresh (flags : Nat) :
    ∀ l, 1 ≤ l →
    ∀ (t p e : Nat) (m : Mem),
      1 ≤ m.next → t < PAGE_SIZE * m.next →
      (∀ j, (m.heap t j).isUnused = true) →
      ∃ k m1, mapInTable MemorySpace.User flags l t emptyFrames ⟨p, e⟩ m = some (k, m1) ∧
        JointSpec l t p e m k m1 := by
  intro l
  induction l using Nat.strong_induction_on with
  | _ l ih =>
  match l, ih with
  | 0, _ => exact fun h => absurd h (by omega)
  | 1, _ => exact fun _ t p e m hn _ hz => jointLeaf flags t p e m hn hz
  | l + 2, ih =>
    intro _ t p e m hnext ht hz
    have hidx0 : pageTableIndex (PAGE_SIZE * p) (l + 2) = p / 512 ^ (l + 1) % 512 :=
      pageTableIndex_page p (l + 1)
    have hi0lt : pageTableIndex (PAGE_SIZE * p) (l + 2) < 512 := pageTableIndex_lt _ _
    obtain ⟨k, m1, heq, hkf, hnext2, halloc2, hfree2, hframe2, ht7, hclause⟩ :=
      jointLoop flags (l + 1) (by omega)
        (fun t' p' e' m' hn' ht' hz' => ih (l + 1) (by omega) (by omega) t' p' e' m' hn' ht' hz')
        (512 - pageTableIndex (PAGE_SIZE * p) (l + 2)) (pageTableIndex (PAGE_SIZE * p) (l + 2))
        p 0 t e m (by omega) (fun _ => hidx0.symm) hnext ht (fun j _ => hz j)
    have hunf : mapInTable MemorySpace.User flags (l + 2) t emptyFrames ⟨p, e⟩ m =
        mapLoop (fun c fr pg mm => mapInTable MemorySpace.User flags (l + 1) c fr pg mm) t flags
          (512 - pageTableIndex (PAGE_SIZE * p) (l + 2)) (pageTableIndex (PAGE_SIZE * p) (l + 2))
          emptyFrames ⟨p, e⟩ 0 m := rfl
    refine ⟨k, m1, ?_, ?_, hnext2, halloc2, hfree2, hframe2, ht7, ?_⟩
    · rw [hunf, heq]
      simp
    · rw [hkf, hidx0, span_step]
    · intro m1' hagt hagb
      obtain ⟨m2, hueq, h2next, h2alloc, h2len, h2ge, h2lt, h2frame⟩ :=
        hclause 0 m1' (fun j _ => hagt j) hagb
      have huunf : unmapInTable (l + 2) t ⟨p, e⟩ m1' =
          unmapLoop (fun c pg mm => unmapInTable (l + 1) c pg mm) t
            (512 - pageTableIndex (PAGE_SIZE * p) (l + 2))
            (pageTableIndex (PAGE_SIZE * p) (l + 2)) ⟨p, e⟩ 0 m1' := rfl
      refine ⟨m2, ?_, h2next, h2alloc, h2len, ?_, h2frame⟩
      · rw [huunf, hueq]
        simp
      · intro j
        by_cases hji : pageTableIndex (PAGE_SIZE * p) (l + 2) ≤ j
        · exact h2ge j hji
        · rw [h2lt j (by omega), hagt j, ht7 j (by omega)]
          exact hz j

/-- A table whose entries are all unused translates nothing, at any
level. -/
theorem translate_none_of_all_unused (l : Nat) (m : Mem) (t : Nat)
    (h : ∀ j, (m.heap t j).isUnused = true) (addr : Nat) :
    translateInTable l m t addr = none := by
  match l with
  | ll + 2 => simp [translateInTable, h]
  | 1 => simp [translateInTable, h]
  | 0 => simp [translateInTable, h]

/-- C5 (amended): on a freshly created AddressSpace (in particular one
with no pre-existing empty intermediate tables), `map(R, User, flags)`
followed by `unmap(R)` returns the frame allocator to its pre-map state:
the unmap frees exactly as many frames as the map allocated (leaf data
frames and intermediate tables alike), restoring the free-frame count —
and afterwards every address again translates to `none`. -/
theorem C5_map_unmap_balanced (d p len flags : Nat) (m0 : Mem)
    (hd : 1 ≤ d) (hnext : 1 ≤ m0.next) :
    ∃ m1,
      AddressSpace.map (AddressSpace.new d m0).1 (AddressSpace.new d m0).2 ⟨p, p + len⟩
        MemorySpace.User flags = some m1 ∧
      m1.freeList = (AddressSpace.new d m0).2.freeList ∧
      m1.allocCount =
        (AddressSpace.new d m0).2.allocCount + (m1.next - (AddressSpace.new d m0).2.next) ∧
      (AddressSpace.unmap (AddressSpace.new d m0).1 m1 ⟨p, p + len⟩).allocCount =
        m1.allocCount ∧
      (AddressSpace.unmap (AddressSpace.new d m0).1 m1 ⟨p, p + len⟩).freeList.length =
        m1.freeList.length + (m1.next - (AddressSpace.new d m0).2.next) ∧
      (∀ addr,
        AddressSpace.translate (AddressSpace.new d m0).1
          (AddressSpace.unmap (AddressSpace.new d m0).1 m1 ⟨p, p + len⟩) addr = none) := by
  have hroot : (AddressSpace.new d m0).1.rootTable = PAGE_SIZE * m0.next := rfl
  have hdepth : (AddressSpace.new d m0).1.depth = d := rfl
  have hN : (AddressSpace.new d m0).2.next = m0.next + 1 := rfl
  obtain ⟨k, m1, heq, hspec⟩ :=
    mapUnmap_fresh flags d hd (PAGE_SIZE * m0.next) p (p + len) (AddressSpace.new d m0).2
      (by omega)
      (by rw [hN, Nat.mul_succ]; have := PAGE_SIZE_pos; omega)
      (fun j => by
        show ((zeroTable _ (PAGE_SIZE * m0.next)).heap (PAGE_SIZE * m0.next) j).isUnused = true
        rw [zeroTable_heap_self]
        rfl)
  simp only [JointSpec] at hspec
  obtain ⟨hkf, hnext1, halloc1, hfree1, hframe1, ht7, hclause⟩ := hspec
  obtain ⟨m2, hueq, h2next, h2alloc, h2len, h2allz, h2frame⟩ :=
    hclause m1 (fun j => rfl) (fun u j _ _ => rfl)
  have hmap : AddressSpace.map (AddressSpace.new d m0).1 (AddressSpace.new d m0).2 ⟨p, p + len⟩
      MemorySpace.User flags = some m1 := by
    show (match mapInTable MemorySpace.User flags (AddressSpace.new d m0).1.depth
      (AddressSpace.new d m0).1.rootTable emptyFrames ⟨p, p + len⟩ (AddressSpace.new d m0).2 with
      | some km => some km.2 | none => none) = some m1
    rw [hdepth, hroot, heq]
  have humap : AddressSpace.unmap (AddressSpace.new d m0).1 m1 ⟨p, p + len⟩ = m2 := by
    show (unmapInTable (AddressSpace.new d m0).1.depth (AddressSpace.new d m0).1.rootTable
      ⟨p, p + len⟩ m1).2 = m2
    rw [hdepth, hroot, hueq]
  refine ⟨m1, hmap, hfree1, halloc1, ?_, ?_, ?_⟩
  · rw [humap, h2alloc]
  · rw [humap, h2len]
  · intro addr
    rw [humap]
    show translateInTable (AddressSpace.new d m0).1.depth m2
      (AddressSpace.new d m0).1.rootTable addr = none
    rw [hdepth, hroot]
    exact translate_none_of_all_unused d m2 (PAGE_SIZE * m0.next) h2allz addr

/-- Witness: C5 (amended) on a fresh depth-2 space, mapping and
unmapping pages [3, 703). -/
theorem C5_map_unmap_balanced_witness :
    1 ≤ 2 ∧ 1 ≤ mem0.next ∧
      ∃ m1,
        AddressSpace.map (AddressSpace.new 2 mem0).1 (AddressSpace.new 2 mem0).2 ⟨3, 3 + 700⟩
          MemorySpace.User 7 = some m1 ∧
        m1.freeList = (AddressSpace.new 2 mem0).2.freeList ∧
        m1.allocCount =
          (AddressSpace.new 2 mem0).2.allocCount + (m1.next - (AddressSpace.new 2 mem0).2.next) ∧
        (AddressSpace.unmap (AddressSpace.new 2 mem0).1 m1 ⟨3, 3 + 700⟩).allocCount =
          m1.allocCount ∧
        (AddressSpace.unmap (AddressSpace.new 2 mem0).1 m1 ⟨3, 3 + 700⟩).freeList.length =
          m1.freeList.length + (m1.next - (AddressSpace.new 2 mem0).2.next) ∧
        (∀ addr,
          AddressSpace.translate (AddressSpace.new 2 mem0).1
            (AddressSpace.unmap (AddressSpace.new 2 mem0).1 m1 ⟨3, 3 + 700⟩) addr = none) :=
  ⟨by norm_num, by norm_num [mem0],
    C5_map_unmap_balanced 2 3 700 7 mem0 (by norm_num) (by norm_num [mem0])⟩

end Paging
